import Mathlib

/-!
Verification development for the workshop publishing script (`publish.py`).

The script's structured core is modelled as executable Lean definitions:
YAML/JSON-ish values and the recursive dictionary merge (`_deep_merge`),
glob matching of metadata-override rules (`fnmatch`), the notebook content
processor (`process_notebook`), the index sorting and section rendering of
`create_index`, and the table-of-contents generator
(`generate_toc_from_markdown`).  Python dictionaries are modelled as
insertion-ordered association lists, mirroring CPython semantics: updating
an existing key keeps its position, a new key is appended at the end.
-/

namespace Publish

/-- Model of a Python/YAML value as it occurs in workshop metadata: strings,
numbers, lists and (insertion-ordered) dictionaries. -/
inductive Value where
  | str (s : String)
  | num (n : Int)
  | list (vs : List Value)
  | dict (entries : List (String × Value))
deriving Repr

/-- Entries of a modelled Python dictionary, in insertion order. -/
abbrev Entries := List (String × Value)

mutual

/-- Decidable equality for `Value` (the derive handler does not support this
nested inductive, so the instance is written out). -/
def decEqValue : (a b : Value) → Decidable (a = b)
  | .str a, .str b =>
    if h : a = b then .isTrue (h ▸ rfl) else .isFalse (by intro he; cases he; exact h rfl)
  | .num a, .num b =>
    if h : a = b then .isTrue (h ▸ rfl) else .isFalse (by intro he; cases he; exact h rfl)
  | .list a, .list b =>
    match decEqValueList a b with
    | .isTrue h => .isTrue (by rw [h])
    | .isFalse h => .isFalse (by intro he; cases he; exact h rfl)
  | .dict a, .dict b =>
    match decEqEntryList a b with
    | .isTrue h => .isTrue (by rw [h])
    | .isFalse h => .isFalse (by intro he; cases he; exact h rfl)
  | .str _, .num _ => .isFalse (fun h => nomatch h)
  | .str _, .list _ => .isFalse (fun h => nomatch h)
  | .str _, .dict _ => .isFalse (fun h => nomatch h)
  | .num _, .str _ => .isFalse (fun h => nomatch h)
  | .num _, .list _ => .isFalse (fun h => nomatch h)
  | .num _, .dict _ => .isFalse (fun h => nomatch h)
  | .list _, .str _ => .isFalse (fun h => nomatch h)
  | .list _, .num _ => .isFalse (fun h => nomatch h)
  | .list _, .dict _ => .isFalse (fun h => nomatch h)
  | .dict _, .str _ => .isFalse (fun h => nomatch h)
  | .dict _, .num _ => .isFalse (fun h => nomatch h)
  | .dict _, .list _ => .isFalse (fun h => nomatch h)

/-- Decidable equality on lists of values. -/
def decEqValueList : (a b : List Value) → Decidable (a = b)
  | [], [] => .isTrue rfl
  | [], _ :: _ => .isFalse (fun h => nomatch h)
  | _ :: _, [] => .isFalse (fun h => nomatch h)
  | x :: xs, y :: ys =>
    match decEqValue x y, decEqValueList xs ys with
    | .isTrue h1, .isTrue h2 => .isTrue (by rw [h1, h2])
    | .isFalse h1, _ => .isFalse (by intro he; cases he; exact h1 rfl)
    | _, .isFalse h2 => .isFalse (by intro he; cases he; exact h2 rfl)

/-- Decidable equality on dictionary entry lists. -/
def decEqEntryList : (a b : Entries) → Decidable (a = b)
  | [], [] => .isTrue rfl
  | [], _ :: _ => .isFalse (fun h => nomatch h)
  | _ :: _, [] => .isFalse (fun h => nomatch h)
  | (k, x) :: xs, (k2, y) :: ys =>
    if hk : k = k2 then
      match decEqValue x y, decEqEntryList xs ys with
      | .isTrue h1, .isTrue h2 => .isTrue (by rw [hk, h1, h2])
      | .isFalse h1, _ => .isFalse (by intro he; cases he; exact h1 rfl)
      | _, .isFalse h2 => .isFalse (by intro he; cases he; exact h2 rfl)
    else .isFalse (by intro he; cases he; exact hk rfl)

end

instance : DecidableEq Value := decEqValue

/-- First value stored under key `k` (Python `d.get(k)` / `d[k]`). -/
def lookup? : Entries → String → Option Value
  | [], _ => none
  | (k2, v) :: rest, k => if k2 = k then some v else lookup? rest k

/-- Python dictionary assignment `d[k] = v`: replace the value of an existing
key in place, otherwise append the new key at the end. -/
def setKey : Entries → String → Value → Entries
  | [], k, v => [(k, v)]
  | (k2, v2) :: rest, k, v =>
    if k2 = k then (k2, v) :: rest else (k2, v2) :: setKey rest k v

/-- Keys of a dictionary, in storage order. -/
def keys (l : Entries) : List String := l.map Prod.fst

mutual

/-- Model of `_deep_merge(base, override)` from `publish.py`: iterate the
override's items in order, applying `mergeStep` for each.  The source first
copies the base (`result = dict(base)`); mutation-freedom of the inputs is
modelled separately at the heap level by `deepMergeH`. -/
def deep_merge : Entries → Entries → Entries
  | result, [] => result
  | result, (k, v) :: rest => deep_merge (mergeStep result k v) rest

/-- One override item of `_deep_merge`: if the override value and the current
value are both dictionaries they are merged recursively
(`result[k] = _deep_merge(result.get(k, {}), v)`), otherwise the override
value replaces the current value outright (`result[k] = v`; the two
non-recursive arms below are both instances of that assignment). -/
def mergeStep (result : Entries) (k : String) (v : Value) : Entries :=
  match v with
  | .dict d =>
    match lookup? result k with
    | some (.dict rd) => setKey result k (.dict (deep_merge rd d))
    | _ => setKey result k (.dict d)
  | _ => setKey result k v

end

/-- Python truthiness for the modelled values (`if value:`). -/
def truthy : Value → Bool
  | .str s => s ≠ ""
  | .num n => n ≠ 0
  | .list vs => vs ≠ []
  | .dict d => d ≠ []

/-- Truthiness of `d.get(k)` where a missing key yields `None` (falsy). -/
def truthy? : Option Value → Bool
  | none => false
  | some v => truthy v

mutual

/-- Size measure of a value, used for the strong inductions below. -/
def vsize : Value → Nat
  | .dict d => 1 + esize d
  | _ => 1

/-- Size measure of dictionary entries. -/
def esize : Entries → Nat
  | [] => 0
  | (_, v) :: rest => 1 + vsize v + esize rest

end

mutual

/-- Well-formedness of a value: every dictionary reachable through
dictionary nesting has pairwise distinct keys.  Every value that denotes an
actual Python object satisfies this, since Python dictionaries cannot hold
a key twice. -/
def wfVal : Value → Bool
  | .dict d => wfEntries d
  | _ => true

/-- Well-formedness of dictionary entries: distinct keys, recursively. -/
def wfEntries : Entries → Bool
  | [] => true
  | (k, v) :: rest => !(decide (k ∈ keys rest)) && wfVal v && wfEntries rest

end


/-! Basic lemmas about the dictionary operations. -/

theorem lookup?_setKey_self (r : Entries) (k : String) (v : Value) :
    lookup? (setKey r k v) k = some v := by
  induction r with
  | nil => simp [setKey, lookup?]
  | cons e rest ih =>
    obtain ⟨k2, v2⟩ := e
    by_cases h : k2 = k <;> simp [setKey, lookup?, h, ih]

theorem lookup?_setKey_ne (r : Entries) (k : String) (v : Value) (k2 : String)
    (h : k ≠ k2) : lookup? (setKey r k v) k2 = lookup? r k2 := by
  induction r with
  | nil => simp [setKey, lookup?, h]
  | cons e rest ih =>
    obtain ⟨k3, v3⟩ := e
    by_cases h3 : k3 = k
    · subst h3; simp [setKey, lookup?, h]
    · simp [setKey, lookup?, h3, ih]

/-- Key list produced by one dictionary assignment. -/
def addOne (ks : List String) (k : String) : List String :=
  if k ∈ ks then ks else ks ++ [k]

/-- Key list produced by a sequence of dictionary assignments. -/
def addKeys : List String → List String → List String
  | ks, [] => ks
  | ks, k :: rest => addKeys (addOne ks k) rest

theorem keys_setKey (r : Entries) (k : String) (v : Value) :
    keys (setKey r k v) = addOne (keys r) k := by
  induction r with
  | nil => simp [setKey, keys, addOne]
  | cons e rest ih =>
    obtain ⟨k2, v2⟩ := e
    by_cases h : k2 = k
    · subst h; simp [setKey, keys, addOne]
    · have hkk2 : ¬ (k = k2) := fun hh => h hh.symm
      simp only [setKey, if_neg h, keys, List.map_cons] at ih ⊢
      rw [ih]
      by_cases hm : k ∈ List.map Prod.fst rest
      · simp [addOne, hm, hkk2]
      · simp [addOne, hm, hkk2]

theorem lookup?_eq_none_iff (l : Entries) (k : String) :
    lookup? l k = none ↔ k ∉ keys l := by
  induction l with
  | nil => simp [lookup?, keys]
  | cons e rest ih =>
    obtain ⟨k2, v2⟩ := e
    by_cases h : k2 = k
    · subst h; simp [lookup?, keys]
    · have h2 : ¬ (k = k2) := fun hh => h hh.symm
      simp [lookup?, keys, h, h2, ih]

theorem lookup?_mem (l : Entries) (k : String) (v : Value)
    (h : lookup? l k = some v) : (k, v) ∈ l := by
  induction l with
  | nil => simp [lookup?] at h
  | cons e rest ih =>
    obtain ⟨k2, v2⟩ := e
    by_cases h2 : k2 = k
    · subst h2; simp [lookup?] at h; simp [h]
    · simp [lookup?, h2] at h; exact List.mem_cons_of_mem _ (ih h)

theorem vsize_lookup (l : Entries) (k : String) (v : Value)
    (h : lookup? l k = some v) : vsize v < esize l := by
  induction l with
  | nil => simp [lookup?] at h
  | cons e rest ih =>
    obtain ⟨k2, v2⟩ := e
    by_cases h2 : k2 = k
    · subst h2; simp [lookup?] at h; subst h; simp [esize]; omega
    · simp [lookup?, h2] at h
      have := ih h
      simp [esize]; omega

theorem addKeys_append (s l1 l2 : List String) :
    addKeys s (l1 ++ l2) = addKeys (addKeys s l1) l2 := by
  induction l1 generalizing s with
  | nil => simp [addKeys]
  | cons a rest ih => simp [addKeys, ih]

theorem mem_addKeys (x : String) (s l : List String) :
    x ∈ addKeys s l ↔ x ∈ s ∨ x ∈ l := by
  induction l generalizing s with
  | nil => simp [addKeys]
  | cons a rest ih =>
    simp only [addKeys, ih, addOne]
    by_cases h : a ∈ s <;> by_cases hx : x = a <;> simp [h, hx]

theorem nodup_addKeys (s l : List String) (h : s.Nodup) : (addKeys s l).Nodup := by
  induction l generalizing s with
  | nil => simpa [addKeys]
  | cons a rest ih =>
    refine ih _ ?_
    unfold addOne
    by_cases ha : a ∈ s
    · simpa [ha]
    · rw [if_neg ha]
      simp [List.nodup_append, h, ha]

theorem addKeys_of_subset (s l : List String) (h : ∀ k ∈ l, k ∈ s) :
    addKeys s l = s := by
  induction l with
  | nil => simp [addKeys]
  | cons a rest ih =>
    have ha : a ∈ s := h a (by simp)
    simp [addKeys, addOne, ha]
    exact ih (fun k hk => h k (by simp [hk]))

theorem keys_mergeStep (r : Entries) (k : String) (v : Value) :
    keys (mergeStep r k v) = addOne (keys r) k := by
  cases v with
  | dict d =>
    simp only [mergeStep]
    cases hl : lookup? r k with
    | none => simp [keys_setKey]
    | some w => cases w <;> simp [keys_setKey]
  | str s => simp [mergeStep, keys_setKey]
  | num n => simp [mergeStep, keys_setKey]
  | list vs => simp [mergeStep, keys_setKey]

theorem deep_merge_nil (r : Entries) : deep_merge r [] = r := rfl

theorem deep_merge_cons (r : Entries) (k : String) (v : Value) (rest : Entries) :
    deep_merge r ((k, v) :: rest) = deep_merge (mergeStep r k v) rest := rfl

theorem keys_deep_merge (r o : Entries) :
    keys (deep_merge r o) = addKeys (keys r) (keys o) := by
  induction o generalizing r with
  | nil => simp [deep_merge, addKeys]
  | cons e rest ih =>
    obtain ⟨k, v⟩ := e
    rw [deep_merge_cons, ih, keys_mergeStep]
    simp [keys, addKeys]

theorem deep_merge_append (m o1 o2 : Entries) :
    deep_merge m (o1 ++ o2) = deep_merge (deep_merge m o1) o2 := by
  induction o1 generalizing m with
  | nil => simp [deep_merge]
  | cons e rest ih =>
    obtain ⟨k, v⟩ := e
    simp [deep_merge_cons, ih]

/-- Value stored at one key after one override item, as a function of the
previously stored value. -/
def stepVal (s : Option Value) (v : Value) : Value :=
  match v with
  | .dict d =>
    match s with
    | some (.dict sd) => .dict (deep_merge sd d)
    | _ => .dict d
  | _ => v

/-- Override values targeting key `k`, in application order. -/
def atKey (k : String) (o : Entries) : List Value :=
  o.filterMap (fun e => if e.1 = k then some e.2 else none)

/-- Per-key state evolution of `deep_merge`: the stored value after applying
a sequence of override values to one key. -/
def sFold : Option Value → List Value → Option Value
  | s, [] => s
  | s, v :: rest => sFold (some (stepVal s v)) rest

theorem lookup?_mergeStep (r : Entries) (k : String) (v : Value) (k2 : String) :
    lookup? (mergeStep r k v) k2 =
      if k = k2 then some (stepVal (lookup? r k) v) else lookup? r k2 := by
  by_cases h : k = k2
  · subst h
    cases v with
    | dict d =>
      simp only [mergeStep, stepVal]
      cases hl : lookup? r k with
      | none => simp [lookup?_setKey_self, hl]
      | some w => cases w <;> simp [lookup?_setKey_self, hl]
    | str s => simp [mergeStep, stepVal, lookup?_setKey_self]
    | num n => simp [mergeStep, stepVal, lookup?_setKey_self]
    | list vs => simp [mergeStep, stepVal, lookup?_setKey_self]
  · cases v with
    | dict d =>
      simp only [mergeStep]
      cases hl : lookup? r k with
      | none => simp [lookup?_setKey_ne _ _ _ _ h, h]
      | some w => cases w <;> simp [lookup?_setKey_ne _ _ _ _ h, h]
    | str s => simp [mergeStep, lookup?_setKey_ne _ _ _ _ h, h]
    | num n => simp [mergeStep, lookup?_setKey_ne _ _ _ _ h, h]
    | list vs => simp [mergeStep, lookup?_setKey_ne _ _ _ _ h, h]

theorem lookup?_deep_merge (o r : Entries) (k : String) :
    lookup? (deep_merge r o) k = sFold (lookup? r k) (atKey k o) := by
  induction o generalizing r with
  | nil => simp [deep_merge, sFold, atKey]
  | cons e rest ih =>
    obtain ⟨k1, v1⟩ := e
    rw [deep_merge_cons, ih]
    by_cases h : k1 = k
    · subst h
      simp [atKey, sFold, lookup?_mergeStep]
    · simp [atKey, h, lookup?_mergeStep]

/-- Insertion-ordered dictionaries with the same key order, no duplicate
keys, and the same per-key contents are equal. -/
theorem entries_ext (r1 r2 : Entries) (hnd : (keys r1).Nodup)
    (hk : keys r1 = keys r2) (hl : ∀ k, lookup? r1 k = lookup? r2 k) :
    r1 = r2 := by
  induction r1 generalizing r2 with
  | nil =>
    cases r2 with
    | nil => rfl
    | cons e t => simp [keys] at hk
  | cons e t1 ih =>
    obtain ⟨k, v⟩ := e
    cases r2 with
    | nil => simp [keys] at hk
    | cons e2 t2 =>
      obtain ⟨k2, v2⟩ := e2
      simp only [keys, List.map_cons, List.cons.injEq] at hk
      obtain ⟨hke, hkt⟩ := hk
      subst hke
      simp only [keys, List.map_cons, List.nodup_cons] at hnd
      have hv : v = v2 := by
        have h0 := hl k
        simpa [lookup?] using h0
      subst hv
      have ht : t1 = t2 := by
        refine ih t2 hnd.2 hkt ?_
        intro k3
        by_cases h3 : k3 = k
        · subst h3
          have h1 : lookup? t1 k3 = none := (lookup?_eq_none_iff _ _).2 hnd.1
          have h2 : lookup? t2 k3 = none := by
            rw [lookup?_eq_none_iff]
            have hkk : keys t2 = keys t1 := by simp [keys, ← hkt]
            rw [hkk]
            exact hnd.1
          rw [h1, h2]
        · have h0 := hl k3
          have hne : ¬ (k = k3) := fun hh => h3 hh.symm
          simpa [lookup?, hne] using h0
      rw [ht]

theorem atKey_of_nodup (o : Entries) (k : String) (h : (keys o).Nodup) :
    atKey k o = (lookup? o k).toList := by
  induction o with
  | nil => simp [atKey, lookup?]
  | cons e rest ih =>
    obtain ⟨k1, v1⟩ := e
    simp only [keys, List.map_cons, List.nodup_cons] at h
    by_cases h1 : k1 = k
    · subst h1
      have hnone : lookup? rest k1 = none := (lookup?_eq_none_iff _ _).2 h.1
      have ha : atKey k1 rest = [] := by
        rw [ih h.2, hnone]; rfl
      have hcons : atKey k1 ((k1, v1) :: rest) = v1 :: atKey k1 rest := by
        simp [atKey]
      rw [hcons, ha]
      simp [lookup?]
    · have hcons : atKey k ((k1, v1) :: rest) = atKey k rest := by
        simp [atKey, h1]
      rw [hcons, ih h.2]
      simp [lookup?, h1]

/-! Well-formedness and compatibility lemmas. -/

theorem wfEntries_nodup (l : Entries) (h : wfEntries l = true) : (keys l).Nodup := by
  induction l with
  | nil => simp [keys]
  | cons e rest ih =>
    obtain ⟨k, v⟩ := e
    simp only [wfEntries, Bool.and_eq_true, Bool.not_eq_true', decide_eq_false_iff_not]
      at h
    simp only [keys, List.map_cons, List.nodup_cons]
    exact ⟨h.1.1, ih h.2⟩

theorem wfVal_lookup (l : Entries) (k : String) (v : Value)
    (hw : wfEntries l = true) (h : lookup? l k = some v) : wfVal v = true := by
  induction l with
  | nil => simp [lookup?] at h
  | cons e rest ih =>
    obtain ⟨k2, v2⟩ := e
    simp only [wfEntries, Bool.and_eq_true] at hw
    by_cases h2 : k2 = k
    · subst h2; simp [lookup?] at h; subst h; exact hw.1.2
    · simp [lookup?, h2] at h; exact ih hw.2 h

theorem wfEntries_lookup_dict (l : Entries) (k : String) (d : Entries)
    (hw : wfEntries l = true) (h : lookup? l k = some (.dict d)) :
    wfEntries d = true := by
  have := wfVal_lookup l k (.dict d) hw h
  simpa [wfVal] using this

mutual

/-- Compatibility of two override values: wherever the later value is a
dictionary and the earlier value exists alongside it, the earlier value is a
dictionary too (recursively).  Replaying the later value then cannot
resurrect structure the earlier value had destroyed. -/
def compatVals : Value → Value → Bool
  | .dict a, .dict b => compatDicts a b
  | .str _, .dict _ => false
  | .num _, .dict _ => false
  | .list _, .dict _ => false
  | _, _ => true

/-- Compatibility of two override dictionaries, checked per key of the later
dictionary. -/
def compatDicts : Entries → Entries → Bool
  | _, [] => true
  | a, (k, w) :: rest =>
    (match lookup? a k with
     | none => true
     | some u => compatVals u w) && compatDicts a rest

end

theorem compat_lookup (A B : Entries) (k : String) (u w : Value)
    (h : compatDicts A B = true) (hB : lookup? B k = some w)
    (hA : lookup? A k = some u) : compatVals u w = true := by
  induction B with
  | nil => simp [lookup?] at hB
  | cons e rest ih =>
    obtain ⟨k1, w1⟩ := e
    simp only [compatDicts, Bool.and_eq_true] at h
    by_cases h1 : k1 = k
    · subst h1
      simp [lookup?] at hB
      subst hB
      have h2 := h.1
      rw [hA] at h2
      exact h2
    · simp [lookup?, h1] at hB
      exact ih h.2 hB

theorem addOne_addKeys (s a : List String) (k : String) :
    addOne (addKeys s a) k = addKeys s (addOne a k) := by
  by_cases hk : k ∈ a
  · have h1 : addOne a k = a := by simp [addOne, hk]
    have h2 : k ∈ addKeys s a := (mem_addKeys _ _ _).2 (Or.inr hk)
    rw [h1]
    simp [addOne, h2]
  · have h1 : addOne a k = a ++ [k] := by simp [addOne, hk]
    rw [h1, addKeys_append]
    rfl

theorem addKeys_assoc (s a b : List String) :
    addKeys (addKeys s a) b = addKeys s (addKeys a b) := by
  induction b generalizing a with
  | nil => simp [addKeys]
  | cons k rest ih =>
    show addKeys (addOne (addKeys s a) k) rest = addKeys s (addKeys (addOne a k) rest)
    rw [addOne_addKeys, ih]

theorem stepVal_none (w : Value) : stepVal none w = w := by
  cases w <;> rfl

/-- Associativity of the deep merge under the compatibility side condition,
by strong induction on the size of the last override. -/
theorem deep_merge_assoc_aux (n : Nat) : ∀ (B m A : Entries), esize B ≤ n →
    wfEntries m = true → wfEntries A = true → wfEntries B = true →
    compatDicts A B = true →
    deep_merge (deep_merge m A) B = deep_merge m (deep_merge A B) := by
  induction n with
  | zero =>
    intro B m A hsz _ _ _ _
    cases B with
    | nil => simp [deep_merge]
    | cons e rest => obtain ⟨k, v⟩ := e; simp [esize] at hsz
  | succ n ih =>
    intro B m A hsz hm hA hB hAB
    have hndm := wfEntries_nodup m hm
    have hndA := wfEntries_nodup A hA
    have hndB := wfEntries_nodup B hB
    refine entries_ext _ _ ?_ ?_ ?_
    · rw [keys_deep_merge, keys_deep_merge]
      exact nodup_addKeys _ _ (nodup_addKeys _ _ hndm)
    · rw [keys_deep_merge, keys_deep_merge, keys_deep_merge, keys_deep_merge]
      exact addKeys_assoc _ _ _
    · intro k
      have hndAB : (keys (deep_merge A B)).Nodup := by
        rw [keys_deep_merge]; exact nodup_addKeys _ _ hndA
      rw [lookup?_deep_merge B (deep_merge m A) k, lookup?_deep_merge A m k,
        lookup?_deep_merge (deep_merge A B) m k, atKey_of_nodup _ _ hndAB,
        lookup?_deep_merge B A k, atKey_of_nodup B k hndB,
        atKey_of_nodup A k hndA]
      cases hz : lookup? B k with
      | none => rfl
      | some w =>
        cases hy : lookup? A k with
        | none =>
          show some (stepVal (sFold (lookup? m k) []) w)
              = some (stepVal (lookup? m k) (stepVal none w))
          rw [stepVal_none]
          rfl
        | some u =>
          show some (stepVal (sFold (lookup? m k) [u]) w)
              = some (stepVal (lookup? m k) (stepVal (some u) w))
          have hcv : compatVals u w = true := compat_lookup A B k u w hAB hz hy
          cases w with
          | dict wd =>
            cases u with
            | dict ud =>
              cases hx : lookup? m k with
              | none => rfl
              | some xv =>
                cases xv with
                | dict md =>
                  have hsz2 : esize wd ≤ n := by
                    have := vsize_lookup B k (.dict wd) hz
                    simp [vsize] at this
                    omega
                  have hwfmd : wfEntries md = true := wfEntries_lookup_dict m k md hm hx
                  have hwfud : wfEntries ud = true := wfEntries_lookup_dict A k ud hA hy
                  have hwfwd : wfEntries wd = true := wfEntries_lookup_dict B k wd hB hz
                  have hcud : compatDicts ud wd = true := by simpa [compatVals] using hcv
                  have hih := ih wd md ud hsz2 hwfmd hwfud hwfwd hcud
                  show some (Value.dict (deep_merge (deep_merge md ud) wd))
                      = some (Value.dict (deep_merge md (deep_merge ud wd)))
                  rw [hih]
                | str s => rfl
                | num m2 => rfl
                | list l2 => rfl
            | str s => simp [compatVals] at hcv
            | num n2 => simp [compatVals] at hcv
            | list l2 => simp [compatVals] at hcv
          | str s => rfl
          | num n2 => rfl
          | list l2 => rfl

/-! Absorption: replaying the same override sequence is a no-op. -/

theorem setKey_not_mem (r : Entries) (k : String) (v : Value)
    (h : k ∉ keys r) : setKey r k v = r ++ [(k, v)] := by
  induction r with
  | nil => simp [setKey]
  | cons e rest ih =>
    obtain ⟨k2, v2⟩ := e
    simp only [keys, List.map_cons, List.mem_cons] at h
    push_neg at h
    have h2 : ¬ (k2 = k) := fun hh => h.1 hh.symm
    simp [setKey, h2, ih h.2]

theorem mergeStep_not_mem (r : Entries) (k : String) (v : Value)
    (h : lookup? r k = none) : mergeStep r k v = setKey r k v := by
  cases v with
  | dict d => simp [mergeStep, h]
  | str s => rfl
  | num n => rfl
  | list vs => rfl

theorem deep_merge_of_disjoint (o : Entries) : ∀ (acc : Entries),
    (∀ k ∈ keys o, k ∉ keys acc) → (keys o).Nodup →
    deep_merge acc o = acc ++ o := by
  induction o with
  | nil => intro acc _ _; simp [deep_merge]
  | cons e rest ih =>
    intro acc hdis hnd
    obtain ⟨k, v⟩ := e
    simp only [keys, List.map_cons, List.nodup_cons] at hnd
    have hk : k ∉ keys acc := hdis k (by simp [keys])
    have hkn : lookup? acc k = none := (lookup?_eq_none_iff _ _).2 hk
    rw [deep_merge_cons, mergeStep_not_mem _ _ _ hkn, setKey_not_mem _ _ _ hk]
    rw [ih (acc ++ [(k, v)]) ?_ hnd.2]
    · simp
    · intro k2 hk2
      have h1 : k2 ∉ keys acc := hdis k2 (List.mem_cons.2 (Or.inr hk2))
      have h2 : ¬ (k2 = k) := fun hh => hnd.1 (hh ▸ hk2)
      simp only [keys, List.map_append, List.map_cons, List.map_nil,
        List.mem_append, List.mem_singleton]
      push_neg
      exact ⟨h1, h2⟩

theorem deep_merge_nil_left (d : Entries) (h : wfEntries d = true) :
    deep_merge [] d = d := by
  have := deep_merge_of_disjoint d [] (by simp [keys]) (wfEntries_nodup d h)
  simpa using this

/-- Concatenation of the entry lists of the dictionary values in a list. -/
def joinD : List Value → Entries
  | [] => []
  | .dict d :: rest => d ++ joinD rest
  | .str _ :: rest => joinD rest
  | .num _ :: rest => joinD rest
  | .list _ :: rest => joinD rest

theorem stepVal_nondict (s : Option Value) (v : Value)
    (h : ∀ d, v ≠ .dict d) : stepVal s v = v := by
  cases v with
  | dict d => exact absurd rfl (h d)
  | str s2 => rfl
  | num n => rfl
  | list l => rfl

theorem sFold_dicts (vs : List Value) : ∀ (e : Entries),
    (∀ v ∈ vs, ∃ d, v = .dict d) →
    sFold (some (.dict e)) vs = some (.dict (deep_merge e (joinD vs))) := by
  induction vs with
  | nil => intro e _; simp [sFold, joinD, deep_merge]
  | cons v rest ih =>
    intro e h
    obtain ⟨d, hd⟩ := h v (by simp)
    subst hd
    show sFold (some (stepVal (some (.dict e)) (.dict d))) rest = _
    have hstep : stepVal (some (.dict e)) (.dict d) = .dict (deep_merge e d) := rfl
    rw [hstep, ih (deep_merge e d) (fun v hv => h v (by simp [hv]))]
    rw [show joinD (Value.dict d :: rest) = d ++ joinD rest from rfl]
    rw [deep_merge_append]

theorem sFold_const_after_nondict (p : List Value) (a : Value)
    (ha : ∀ d, a ≠ .dict d) (q : List Value) :
    ∀ (s s2 : Option Value), sFold s (p ++ a :: q) = sFold s2 (p ++ a :: q) := by
  induction p with
  | nil =>
    intro s s2
    show sFold (some (stepVal s a)) q = sFold (some (stepVal s2 a)) q
    rw [stepVal_nondict _ _ ha, stepVal_nondict _ _ ha]
  | cons v rest ih =>
    intro s s2
    exact ih _ _

theorem esize_append (a b : Entries) : esize (a ++ b) = esize a + esize b := by
  induction a with
  | nil => simp [esize]
  | cons e rest ih => obtain ⟨k, v⟩ := e; simp [esize, ih]; omega

/-- Size of a list of values. -/
def lsize : List Value → Nat
  | [] => 0
  | v :: rest => vsize v + lsize rest

theorem esize_joinD (vs : List Value) : esize (joinD vs) ≤ lsize vs := by
  induction vs with
  | nil => simp [joinD, lsize, esize]
  | cons v rest ih =>
    cases v with
    | dict d =>
      show esize (d ++ joinD rest) ≤ vsize (.dict d) + lsize rest
      rw [esize_append]
      simp [vsize]
      omega
    | str s => simp [joinD, lsize, vsize]; omega
    | num n => simp [joinD, lsize, vsize]; omega
    | list l => simp [joinD, lsize, vsize]; omega

theorem lsize_atKey_le (k : String) (o : Entries) : lsize (atKey k o) ≤ esize o := by
  induction o with
  | nil => simp [atKey, lsize, esize]
  | cons e rest ih =>
    obtain ⟨k1, v⟩ := e
    by_cases h : k1 = k
    · subst h
      have hc : atKey k1 ((k1, v) :: rest) = v :: atKey k1 rest := by simp [atKey]
      rw [hc]
      simp [lsize, esize]
      omega
    · have hc : atKey k ((k1, v) :: rest) = atKey k rest := by simp [atKey, h]
      rw [hc]
      simp [esize]
      omega

theorem lsize_atKey_lt (k : String) (o : Entries) (h : atKey k o ≠ []) :
    lsize (atKey k o) < esize o := by
  induction o with
  | nil => simp [atKey] at h
  | cons e rest ih =>
    obtain ⟨k1, v⟩ := e
    by_cases h1 : k1 = k
    · subst h1
      have hc : atKey k1 ((k1, v) :: rest) = v :: atKey k1 rest := by simp [atKey]
      rw [hc]
      have := lsize_atKey_le k1 rest
      simp [lsize, esize]
      omega
    · have hc : atKey k ((k1, v) :: rest) = atKey k rest := by simp [atKey, h1]
      rw [hc] at h ⊢
      have := ih h
      simp [esize]
      omega

theorem wfVal_of_mem (d : Entries) (p : String × Value)
    (h : wfEntries d = true) (hp : p ∈ d) : wfVal p.2 = true := by
  induction d with
  | nil => simp at hp
  | cons e rest ih =>
    simp only [wfEntries, Bool.and_eq_true] at h
    rcases List.mem_cons.1 hp with h1 | h1
    · subst h1; exact h.1.2
    · exact ih h.2 h1

theorem mem_atKey (k : String) (V : Entries) (v : Value)
    (h : v ∈ atKey k V) : (k, v) ∈ V := by
  unfold atKey at h
  obtain ⟨⟨k1, v1⟩, hmem, hv⟩ := List.mem_filterMap.1 h
  by_cases h1 : k1 = k
  · subst h1
    simp at hv
    subst hv
    exact hmem
  · simp [h1] at hv

/-- Values of a dictionary are well-formed (hypothesis of the absorption
theorem; holds in particular for any well-formed dictionary and for any
concatenation of well-formed dictionaries). -/
def wfVals (V : Entries) : Bool := V.all (fun p => wfVal p.2)

theorem wfVals_joinD (vs : List Value) (h : ∀ v ∈ vs, wfVal v = true) :
    wfVals (joinD vs) = true := by
  induction vs with
  | nil => simp [joinD, wfVals]
  | cons v rest ih =>
    have hrest := ih (fun v2 hv2 => h v2 (by simp [hv2]))
    cases v with
    | dict d =>
      have hd : wfEntries d = true := by simpa [wfVal] using h (.dict d) (by simp)
      show wfVals (d ++ joinD rest) = true
      simp only [wfVals, List.all_append, Bool.and_eq_true]
      refine ⟨?_, by simpa [wfVals] using hrest⟩
      simp only [List.all_eq_true]
      intro p hp
      exact wfVal_of_mem d p hd hp
    | str s => simpa [joinD] using hrest
    | num n => simpa [joinD] using hrest
    | list l => simpa [joinD] using hrest

/-- Replaying an override sequence on its own output is a no-op, by strong
induction on the size of the override. -/
theorem deep_merge_absorb_aux (n : Nat) : ∀ (V x : Entries), esize V ≤ n →
    wfEntries x = true → wfVals V = true →
    deep_merge (deep_merge x V) V = deep_merge x V := by
  induction n with
  | zero =>
    intro V x hsz _ _
    cases V with
    | nil => simp [deep_merge]
    | cons e rest => obtain ⟨k, v⟩ := e; simp [esize] at hsz
  | succ n ih =>
    intro V x hsz hx hV
    have hndx := wfEntries_nodup x hx
    refine entries_ext _ _ ?_ ?_ ?_
    · rw [keys_deep_merge, keys_deep_merge]
      exact nodup_addKeys _ _ (nodup_addKeys _ _ hndx)
    · rw [keys_deep_merge, keys_deep_merge]
      exact addKeys_of_subset _ _
        (fun k hk => (mem_addKeys _ _ _).2 (Or.inr hk))
    · intro k
      rw [lookup?_deep_merge V (deep_merge x V) k, lookup?_deep_merge V x k]
      by_cases hall : ∀ v ∈ atKey k V, ∃ d, v = .dict d
      · cases hvsn : atKey k V with
        | nil => rfl
        | cons v1 rest =>
          rw [hvsn] at hall
          obtain ⟨d1, hd1⟩ := hall v1 (by simp)
          subst hd1
          have hrest : ∀ v ∈ rest, ∃ d, v = .dict d :=
            fun v hv => hall v (by simp [hv])
          have hwfvals : ∀ v ∈ (Value.dict d1 :: rest), wfVal v = true := by
            intro v hv
            have hv2 : v ∈ atKey k V := by rw [hvsn]; exact hv
            have hmem : (k, v) ∈ V := mem_atKey k V v hv2
            simpa using List.all_eq_true.1 hV _ hmem
          have hwfd1 : wfEntries d1 = true := by
            simpa [wfVal] using hwfvals (.dict d1) (by simp)
          have honce : ∀ (s0 : Entries) (t : Option Value),
              stepVal t (.dict d1) = .dict (deep_merge s0 d1) →
              sFold t (Value.dict d1 :: rest)
                = some (.dict (deep_merge s0 (d1 ++ joinD rest))) := by
            intro s0 t hstep
            show sFold (some (stepVal t (.dict d1))) rest = _
            rw [hstep, sFold_dicts rest (deep_merge s0 d1) hrest,
              deep_merge_append]
          have hL : esize (d1 ++ joinD rest) ≤ n := by
            have h3 : lsize (Value.dict d1 :: rest) < esize V := by
              rw [← hvsn]
              exact lsize_atKey_lt k V (by rw [hvsn]; simp)
            have h4 : esize (joinD (Value.dict d1 :: rest))
                ≤ lsize (Value.dict d1 :: rest) := esize_joinD _
            have h5 : joinD (Value.dict d1 :: rest) = d1 ++ joinD rest := rfl
            rw [h5] at h4
            omega
          have hwfL : wfVals (d1 ++ joinD rest) = true := by
            have := wfVals_joinD (Value.dict d1 :: rest) hwfvals
            simpa [joinD] using this
          have hmain : ∀ (s0 : Entries), wfEntries s0 = true →
              stepVal (lookup? x k) (.dict d1) = .dict (deep_merge s0 d1) →
              sFold (sFold (lookup? x k) (Value.dict d1 :: rest))
                  (Value.dict d1 :: rest)
                = sFold (lookup? x k) (Value.dict d1 :: rest) := by
            intro s0 hs0 hstep
            rw [honce s0 (lookup? x k) hstep]
            rw [honce (deep_merge s0 (d1 ++ joinD rest))
              (some (.dict (deep_merge s0 (d1 ++ joinD rest)))) rfl]
            rw [ih (d1 ++ joinD rest) s0 hL hs0 hwfL]
          have hstepcase : ∃ s0, wfEntries s0 = true ∧
              stepVal (lookup? x k) (.dict d1) = .dict (deep_merge s0 d1) := by
            cases hcase : lookup? x k with
            | none => exact ⟨[], rfl, by rw [deep_merge_nil_left d1 hwfd1]; rfl⟩
            | some sv =>
              cases sv with
              | dict sd => exact ⟨sd, wfEntries_lookup_dict x k sd hx hcase, rfl⟩
              | str s2 => exact ⟨[], rfl, by rw [deep_merge_nil_left d1 hwfd1]; rfl⟩
              | num n2 => exact ⟨[], rfl, by rw [deep_merge_nil_left d1 hwfd1]; rfl⟩
              | list l2 => exact ⟨[], rfl, by rw [deep_merge_nil_left d1 hwfd1]; rfl⟩
          obtain ⟨s0, hs0, hstep⟩ := hstepcase
          exact hmain s0 hs0 hstep
      · push_neg at hall
        obtain ⟨a, hamem, hand⟩ := hall
        obtain ⟨p, q, hpq⟩ := List.append_of_mem hamem
        rw [hpq]
        exact sFold_const_after_nondict p a hand q _ _

/-! Glob matching (`fnmatch.fnmatch`) and the metadata override merger. -/

/-- Parser state inside a glob `[...]` character class: nothing pending, a
pending range start, or a pending range start followed by `-`. -/
inductive ClassSt where
  | start0
  | pend (c : Char)
  | dash (c : Char)

/-- Scan a character-class body up to the closing `]`, converting `a-b`
spans to ranges; a `-` right before the closing bracket is literal.
Returns the parsed ranges and the remaining pattern, or `none` when the
class is never closed (in which case `[` is treated as a literal). -/
def classBody : ClassSt → List Char → List (Char × Char) →
    Option (List (Char × Char) × List Char)
  | _, [], _ => none
  | .start0, x :: rest, acc =>
    if x = ']' then some (acc.reverse, rest) else classBody (.pend x) rest acc
  | .pend c, x :: rest, acc =>
    if x = ']' then some (((c, c) :: acc).reverse, rest)
    else if x = '-' then classBody (.dash c) rest acc
    else classBody (.pend x) rest ((c, c) :: acc)
  | .dash c, x :: rest, acc =>
    if x = ']' then some ((('-', '-') :: (c, c) :: acc).reverse, rest)
    else classBody .start0 rest ((c, x) :: acc)

/-- Start scanning a class body; a `]` directly after `[` (or `[!`) is an
ordinary content character. -/
def classStart : List Char → Option (List (Char × Char) × List Char)
  | ']' :: rest => classBody (.pend ']') rest []
  | body => classBody .start0 body []

/-- Parse a character class after the opening `[`: an optional leading `!`
negates the class. -/
def parseClass : List Char → Option (Bool × List (Char × Char) × List Char)
  | '!' :: rest =>
    (match classStart rest with
     | some (items, r) => some (true, items, r)
     | none => none)
  | ps =>
    (match classStart ps with
     | some (items, r) => some (false, items, r)
     | none => none)

/-- Membership of a character in parsed class ranges (by code point, as the
regex classes produced by `fnmatch.translate` behave). -/
def charInClass (items : List (Char × Char)) (c : Char) : Bool :=
  items.any (fun p => p.1 ≤ c && c ≤ p.2)

/-- Shell-glob matcher implementing `fnmatch` semantics: `*` matches any
sequence (`fnmatch` does not special-case `/`), `?` any single character,
`[...]` a character class.  Every step consumes at least one pattern or
subject symbol, so the explicit fuel — instantiated by `globMatch` with the
combined length plus one — is always sufficient and the fuel-exhausted arm
is unreachable from `globMatch`. -/
def globMatchF : Nat → List Char → List Char → Bool
  | 0, _, _ => false
  | _ + 1, [], [] => true
  | _ + 1, [], _ :: _ => false
  | fuel + 1, '*' :: ps, s =>
    globMatchF fuel ps s ||
      (match s with
       | [] => false
       | _ :: s2 => globMatchF fuel ('*' :: ps) s2)
  | fuel + 1, '?' :: ps, s =>
    (match s with
     | [] => false
     | _ :: s2 => globMatchF fuel ps s2)
  | fuel + 1, '[' :: ps, s =>
    (match parseClass ps with
     | some (neg, items, rest) =>
       (match s with
        | [] => false
        | c :: s2 => (charInClass items c != neg) && globMatchF fuel rest s2)
     | none =>
       (match s with
        | [] => false
        | c :: s2 => (c = '[') && globMatchF fuel ps s2))
  | fuel + 1, p :: ps, s =>
    (match s with
     | [] => false
     | c :: s2 => (c = p) && globMatchF fuel ps s2)

/-- Glob match of a subject against a pattern. -/
def globMatch (p s : List Char) : Bool :=
  globMatchF (p.length + s.length + 1) p s

/-- Model of `fnmatch.fnmatch(name, pattern)` (`os.path.normcase` is the
identity on the POSIX systems the script targets). -/
def fnmatch (name pat : String) : Bool :=
  globMatch pat.toList name.toList

/-- Whether an override rule applies to a file, per `apply_metadata_overrides`:
its pattern matches the path relative to the working root, or the bare file
name. -/
def matchesRule (rel nm pat : String) : Bool :=
  fnmatch rel pat || fnmatch nm pat

/-- Model of `apply_metadata_overrides(file_path, meta, config)`.  The path
computation `file_path.resolve().relative_to(Path.cwd())` is modelled by
passing the relative path `rel` and the bare name `nm` directly, and the
rule sequence produced by `_iter_metadata_overrides(config)` is passed as
`rules`.  Each matching rule's values are deep-merged into the accumulator
in declaration order, starting from a copy of `meta`. -/
def apply_metadata_overrides (rel nm : String) (meta : Entries)
    (rules : List (String × Entries)) : Entries :=
  rules.foldl
    (fun merged rule =>
      if matchesRule rel nm rule.1 then deep_merge merged rule.2 else merged)
    meta

/-- Concatenated values of all rules that match the file, in declaration
order. -/
def matchedPatch (rel nm : String) (rules : List (String × Entries)) : Entries :=
  ((rules.filter (fun r => matchesRule rel nm r.1)).map (fun r => r.2)).flatten

theorem apply_metadata_overrides_eq (rel nm : String) (rules : List (String × Entries)) :
    ∀ (meta : Entries),
    apply_metadata_overrides rel nm meta rules
      = deep_merge meta (matchedPatch rel nm rules) := by
  induction rules with
  | nil => intro meta; simp [apply_metadata_overrides, matchedPatch, deep_merge]
  | cons r rest ih =>
    intro meta
    by_cases hm : matchesRule rel nm r.1
    · have h1 : apply_metadata_overrides rel nm meta (r :: rest)
          = apply_metadata_overrides rel nm (deep_merge meta r.2) rest := by
        simp [apply_metadata_overrides, hm]
      have h2 : matchedPatch rel nm (r :: rest) = r.2 ++ matchedPatch rel nm rest := by
        simp [matchedPatch, hm]
      rw [h1, h2, ih, deep_merge_append]
    · have h1 : apply_metadata_overrides rel nm meta (r :: rest)
          = apply_metadata_overrides rel nm meta rest := by
        simp [apply_metadata_overrides, hm]
      have h2 : matchedPatch rel nm (r :: rest) = matchedPatch rel nm rest := by
        simp [matchedPatch, hm]
      rw [h1, h2, ih]

theorem wfVals_append (a b : Entries) (ha : wfVals a = true) (hb : wfVals b = true) :
    wfVals (a ++ b) = true := by
  simp only [wfVals, List.all_append, Bool.and_eq_true] at ha hb ⊢
  exact ⟨ha, hb⟩

theorem wfVals_of_wfEntries (d : Entries) (h : wfEntries d = true) : wfVals d = true := by
  simp only [wfVals, List.all_eq_true]
  exact fun p hp => wfVal_of_mem d p h hp

theorem wfVals_matchedPatch (rel nm : String) (rules : List (String × Entries))
    (h : ∀ r ∈ rules, wfEntries r.2 = true) :
    wfVals (matchedPatch rel nm rules) = true := by
  induction rules with
  | nil => simp [matchedPatch, wfVals]
  | cons r rest ih =>
    have hrest := ih (fun r2 hr2 => h r2 (by simp [hr2]))
    by_cases hm : matchesRule rel nm r.1
    · have h2 : matchedPatch rel nm (r :: rest) = r.2 ++ matchedPatch rel nm rest := by
        simp [matchedPatch, hm]
      rw [h2]
      exact wfVals_append _ _ (wfVals_of_wfEntries _ (h r (by simp))) hrest
    · have h2 : matchedPatch rel nm (r :: rest) = matchedPatch rel nm rest := by
        simp [matchedPatch, hm]
      rw [h2]
      exact hrest

/-- C3 counterexample: `_deep_merge` is not associative over sequential
patch application.  With base `{"k": {"x": 1}}`, first patch `{"k": 2}` and
second patch `{"k": {"y": 3}}`, merging the patches one after the other
yields `{"k": {"y": 3}}`, while pre-merging the two patches and applying
the combined patch once yields `{"k": {"x": 1, "y": 3}}`. -/
theorem c3_deep_merge_not_assoc :
    deep_merge
        (deep_merge [("k", Value.dict [("x", Value.num 1)])] [("k", Value.num 2)])
        [("k", Value.dict [("y", Value.num 3)])]
      ≠ deep_merge [("k", Value.dict [("x", Value.num 1)])]
        (deep_merge [("k", Value.num 2)] [("k", Value.dict [("y", Value.num 3)])]) := by
  decide

/-- C3 (amended): `_deep_merge(_deep_merge(m, A), B) = _deep_merge(m,
_deep_merge(A, B))` holds for well-formed dictionaries whenever the two
patches are compatible — at no key (recursively) does `B` carry a
dictionary where `A` carries a non-dictionary.  Without that side
condition the equation fails (`c3_deep_merge_not_assoc`). -/
theorem c3_deep_merge_assoc_of_compat (m A B : Entries)
    (hm : wfEntries m = true) (hA : wfEntries A = true) (hB : wfEntries B = true)
    (hAB : compatDicts A B = true) :
    deep_merge (deep_merge m A) B = deep_merge m (deep_merge A B) :=
  deep_merge_assoc_aux (esize B) B m A (le_refl _) hm hA hB hAB

/-- Witness for the amended C3 theorem at a concrete input. -/
theorem c3_deep_merge_assoc_of_compat_witness :
    wfEntries [("k", Value.dict [("x", Value.num 1)])] = true ∧
    compatDicts [("k", Value.dict [("z", Value.num 5)])]
      [("k", Value.dict [("y", Value.num 3)])] = true ∧
    deep_merge
        (deep_merge [("k", Value.dict [("x", Value.num 1)])]
          [("k", Value.dict [("z", Value.num 5)])])
        [("k", Value.dict [("y", Value.num 3)])]
      = deep_merge [("k", Value.dict [("x", Value.num 1)])]
        (deep_merge [("k", Value.dict [("z", Value.num 5)])]
          [("k", Value.dict [("y", Value.num 3)])]) :=
  ⟨by decide, by decide,
    c3_deep_merge_assoc_of_compat _ _ _ (by decide) (by decide) (by decide) (by decide)⟩

/-- C4: applying the metadata override merger twice yields the same result
as applying it once, for any file path, well-formed base metadata and
well-formed rule values.  The same rules match in both passes, so both
sides reduce to deep merges of the concatenated matching patch, and
replaying a patch on its own output is a no-op. -/
theorem c4_apply_metadata_overrides_idempotent (rel nm : String) (meta : Entries)
    (rules : List (String × Entries)) (hmeta : wfEntries meta = true)
    (hrules : ∀ r ∈ rules, wfEntries r.2 = true) :
    apply_metadata_overrides rel nm (apply_metadata_overrides rel nm meta rules) rules
      = apply_metadata_overrides rel nm meta rules := by
  rw [apply_metadata_overrides_eq, apply_metadata_overrides_eq]
  exact deep_merge_absorb_aux (esize (matchedPatch rel nm rules)) _ _ (le_refl _)
    hmeta (wfVals_matchedPatch rel nm rules hrules)

/-- Witness for the C4 idempotence theorem at a concrete input. -/
theorem c4_apply_metadata_overrides_idempotent_witness :
    wfEntries [("title", Value.str "base"), ("opts", Value.dict [("x", Value.num 1)])] = true ∧
    (∀ r ∈ [("*.ipynb", [("opts", Value.dict [("y", Value.num 2)])]),
        ("other/*", [("title", Value.str "nope")])],
      wfEntries (Prod.snd r) = true) ∧
    apply_metadata_overrides "sec/a.ipynb" "a.ipynb"
        (apply_metadata_overrides "sec/a.ipynb" "a.ipynb"
          [("title", Value.str "base"), ("opts", Value.dict [("x", Value.num 1)])]
          [("*.ipynb", [("opts", Value.dict [("y", Value.num 2)])]),
           ("other/*", [("title", Value.str "nope")])])
        [("*.ipynb", [("opts", Value.dict [("y", Value.num 2)])]),
         ("other/*", [("title", Value.str "nope")])]
      = apply_metadata_overrides "sec/a.ipynb" "a.ipynb"
          [("title", Value.str "base"), ("opts", Value.dict [("x", Value.num 1)])]
          [("*.ipynb", [("opts", Value.dict [("y", Value.num 2)])]),
           ("other/*", [("title", Value.str "nope")])] :=
  ⟨by decide, by decide,
    c4_apply_metadata_overrides_idempotent _ _ _ _ (by decide) (by decide)⟩

/-- C5: an override rule applies exactly when its glob pattern matches the
file's working-root-relative path or its bare name — the merger folds the
values of precisely the matching rules, in order, into the metadata — and
the glob semantics cover `*`, `?` and `[...]`.  In particular the pattern
`section1/*.ipynb` matches `section1/intro.ipynb` but not
`section2/intro.ipynb` (also not via its bare name `intro.ipynb`). -/
theorem c5_glob_override_matching :
    (∀ (rel nm : String) (meta : Entries) (rules : List (String × Entries)),
      apply_metadata_overrides rel nm meta rules
        = deep_merge meta (matchedPatch rel nm rules)) ∧
    matchesRule "section1/intro.ipynb" "intro.ipynb" "section1/*.ipynb" = true ∧
    matchesRule "section2/intro.ipynb" "intro.ipynb" "section1/*.ipynb" = false ∧
    apply_metadata_overrides "section1/intro.ipynb" "intro.ipynb" []
        [("section1/*.ipynb", [("title", Value.str "T")])]
      = [("title", Value.str "T")] ∧
    apply_metadata_overrides "section2/intro.ipynb" "intro.ipynb" []
        [("section1/*.ipynb", [("title", Value.str "T")])]
      = [] ∧
    fnmatch "abc" "a?c" = true ∧
    fnmatch "abc" "a[b-d]c" = true ∧
    fnmatch "aec" "a[b-d]c" = false :=
  ⟨fun rel nm meta rules => apply_metadata_overrides_eq rel nm rules meta,
    by decide, by decide, by decide, by decide, by decide, by decide, by decide⟩

/-! Notebook content processor (`process_notebook`). -/

/-- Run-wide configuration as `process_notebook` and `create_index` consume
it: repository identifier, branch, output directory, and the metadata
override rules already normalized to `(pattern, values)` pairs by
`_iter_metadata_overrides`. -/
structure Config where
  github_repo : String
  github_branch : String
  output_dir : String
  rules : List (String × Entries)
deriving Repr, DecidableEq

/-- Model of a notebook cell.  The cell metadata is reduced to the tag list
the script inspects (`cell["metadata"].get("tags")`, absent for cells with
empty metadata); outputs are kept as opaque strings since the script only
clears or copies them; markdown cells carry empty outputs and a null
execution count in the model. -/
structure Cell where
  cell_type : String
  tags : Option (List String)
  source : List String
  outputs : List String
  execution_count : Option Int
deriving Repr, DecidableEq

/-- A notebook source file: `Path` stem, the containing directory's name and
working-root-relative path, the cells, and the embedded
`metadata.workshop` block. -/
structure NotebookSrc where
  name : String
  dirName : String
  dirPath : String
  cells : List Cell
  workshop : Entries
deriving Repr, DecidableEq

/-- Summary record returned by `process_notebook` for the index. -/
structure Summary where
  name : String
  title : Value
  description : Value
  exercise_file : String
  answers_file : String
  data_file : Option String
  sectionTitle : String
  order : Option Int
  links : Option Value
  slides : Option Value
deriving Repr, DecidableEq

/-- Result of processing one notebook: skipped (`return None`), fatal
(`sys.exit(1)` for an unresolvable slide reference), or the two written
variants plus the summary record. -/
inductive ProcResult where
  | skipped
  | fatal
  | ok (exercise : List Cell) (complete : List Cell) (info : Summary)
deriving Repr, DecidableEq

/-- Python `d.get(k, default)`. -/
def getD (m : Entries) (k : String) (d : Value) : Value :=
  match lookup? m k with
  | some v => v
  | none => d

/-- Tag check of the exercise loop:
`cell.get('metadata', {}).get('tags') and 'solution' in cell['metadata']['tags']`. -/
def hasSolutionTag (c : Cell) : Bool :=
  match c.tags with
  | some ts => (ts ≠ ([] : List String)) && ts.contains "solution"
  | none => false

/-- Output clearing for code cells in the exercise variant. -/
def clearIfCode (c : Cell) : Cell :=
  if c.cell_type = "code" then { c with outputs := [], execution_count := none } else c

/-- The empty code cell substituted for a solution-tagged cell. -/
def emptySolutionCell : Cell := ⟨"code", none, [], [], none⟩

/-- Per-cell action of the exercise-variant loop (`publish.py` lines
431-445): clear outputs and execution count of code cells, then replace any
solution-tagged cell wholesale by an empty code cell. -/
def exerciseCell (c : Cell) : Cell :=
  let c1 := clearIfCode c
  if hasSolutionTag c1 then emptySolutionCell else c1

/-- Python `str.split()` with no arguments: split on whitespace runs,
dropping empty fields. -/
def splitWhitespace (s : String) : List String :=
  (s.split Char.isWhitespace).filter (fun t => t ≠ "")

/-- The package list derived from the `install` metadata value: a string is
whitespace-split, a list is taken as is (non-string entries would raise in
the source and are outside the modelled input space), anything else yields
no packages. -/
def installPackagesOf (v : Value) : List String :=
  match v with
  | .str s => splitWhitespace s
  | .list vs => vs.filterMap (fun x => match x with | .str s => some s | _ => none)
  | _ => []

/-- Uppercase hexadecimal digit. -/
def hexDigit (n : Nat) : Char :=
  if n < 10 then Char.ofNat (48 + n) else Char.ofNat (55 + n)

/-- Characters `urllib.parse.quote` leaves unescaped (default safe set plus
`/`). -/
def isUrlSafe (c : Char) : Bool :=
  c.isAlphanum || c = '_' || c = '.' || c = '-' || c = '~' || c = '/'

/-- ASCII model of `urllib.parse.quote`: percent-encode every unsafe
character. -/
def urlQuote (s : String) : String :=
  String.mk (s.toList.foldr
    (fun c acc =>
      if isUrlSafe c then c :: acc
      else '%' :: hexDigit (c.toNat / 16 % 16) :: hexDigit (c.toNat % 16) :: acc)
    [])

/-- A generated code cell (`"metadata": {}`). -/
def mkCodeCell (lines : List String) : Cell := ⟨"code", none, lines, [], none⟩

/-- Source lines of the synthesized package-install cell. -/
def installCellLines (packages : List String) : List String :=
  "# Install required packages\n" ::
    packages.filterMap (fun p =>
      if p.trim ≠ "" then some ("%pip install --upgrade --quiet " ++ p.trim ++ "\n")
      else none)

/-- Source lines of the synthesized data-download cell. -/
def downloadCellLines (zipName : String) (cfg : Config)
    (sectionFolder : Option String) : List String :=
  let encoded := urlQuote zipName
  let zipUrl := match sectionFolder with
    | some f => cfg.output_dir ++ "/" ++ f ++ "/" ++ encoded
    | none => cfg.output_dir ++ "/" ++ encoded
  ["# Download and extract data files\n",
   "import os\n",
   "import urllib.request\n",
   "import zipfile\n",
   "\n",
   "url = 'https://github.com/" ++ cfg.github_repo ++ "/raw/" ++ cfg.github_branch
     ++ "/" ++ zipUrl ++ "'\n",
   "print(f'Downloading data from {url}...')\n",
   "urllib.request.urlretrieve(url, '" ++ zipName ++ "')\n",
   "\n",
   "print('Extracting " ++ zipName ++ "...')\n",
   "with zipfile.ZipFile('" ++ zipName ++ "', 'r') as zip_ref:\n",
   "    zip_ref.extractall('.')\n",
   "\n",
   "os.remove('" ++ zipName ++ "')\n",
   "print('Data files extracted!')"]

/-- Model of `create_setup_cells`: an install cell when the split package
list is nonempty, then a download cell when a data zip is declared; nothing
when building for Codespaces. -/
def create_setup_cells (zipName : Option String) (cfg : Config)
    (packages : List String) (sectionFolder : Option String)
    (forCodespaces : Bool) : List Cell :=
  if forCodespaces then []
  else
    (if packages ≠ ([] : List String) then [mkCodeCell (installCellLines packages)] else []) ++
    (match zipName with
     | some z => [mkCodeCell (downloadCellLines z cfg sectionFolder)]
     | none => [])

/-- Last path component, as `Path(s).name`. -/
def baseName (s : String) : String := (s.splitOn "/").getLastD ""

/-- The markdown cell linking to the slides, inserted after the setup
cells. -/
def mkSlideCell (slide : String) : Cell :=
  ⟨"markdown", none,
    ["**Slides:** [" ++ baseName slide ++ "](./" ++ baseName slide ++ ")"], [], none⟩

/-- Setup cells prepended to both variants when the merged metadata declares
data files or an install list (`publish.py` lines 449-458). -/
def processSetup (metadata : Entries) (cfg : Config) (nb : NotebookSrc) : List Cell :=
  if truthy? (lookup? metadata "data_files") || truthy? (lookup? metadata "install") then
    create_setup_cells
      (if truthy? (lookup? metadata "data_files") then some (nb.name ++ "-data.zip") else none)
      cfg
      (installPackagesOf (getD metadata "install" (.str "pandas natural_pdf tqdm")))
      (some nb.dirName) false
  else []

/-- The slide-link cell inserted after the setup cells when the merged
metadata declares a (string) slide reference; a non-string truthy value
would raise `TypeError` at `Path(slide_file)` in the source and is outside
the modelled input space. -/
def slideCellsOf (metadata : Entries) : List Cell :=
  match lookup? metadata "slides" with
  | some (.str s) => if s ≠ "" then [mkSlideCell s] else []
  | _ => []

/-- Cells inserted before the notebook's own cells, identically in both
variants. -/
def processPre (metadata : Entries) (cfg : Config) (nb : NotebookSrc) : List Cell :=
  processSetup metadata cfg nb ++ slideCellsOf metadata

/-- Whether a slide reference resolves: the file exists relative to the
notebook's directory (`notebook_dir / slide_file`) or as a path from the
project root (`Path(slide_file)`).  `existsFiles` models the set of paths
that exist on disk. -/
def slideResolves (existsFiles : List String) (dirPath slide : String) : Bool :=
  existsFiles.contains (dirPath ++ "/" ++ slide) || existsFiles.contains slide

/-- Model of `process_notebook(notebook_path, output_dir, config)`.  The
embedded workshop metadata is merged with the matching config overrides; an
empty merged metadata dictionary skips the notebook (`return None`); an
undeclared or resolvable slide reference proceeds, an unresolvable one is
fatal (`sys.exit(1)`).  On success the exercise variant is the processed
cells and the answers variant the original cells, both behind the same
prefix of generated setup/slide cells; the summary record mirrors lines
517-528 of the source (the `order` key is modelled as an integer, as the
configs the script consumes use; non-numeric keys are treated as absent). -/
def process_notebook (existsFiles : List String) (cfg : Config)
    (nb : NotebookSrc) : ProcResult :=
  let relPath := nb.dirPath ++ "/" ++ nb.name ++ ".ipynb"
  let bare := nb.name ++ ".ipynb"
  let metadata := apply_metadata_overrides relPath bare nb.workshop cfg.rules
  if metadata = [] then .skipped
  else
    let pre := processPre metadata cfg nb
    let fatalSlide := match lookup? metadata "slides" with
      | some (.str s) => s ≠ "" && !(slideResolves existsFiles nb.dirPath s)
      | _ => false
    if fatalSlide then .fatal
    else
      .ok (pre ++ nb.cells.map exerciseCell) (pre ++ nb.cells)
        { name := nb.name
          title := getD metadata "title" (.str nb.name)
          description := getD metadata "description" (.str "")
          exercise_file := nb.dirName ++ "/" ++ nb.name ++ ".ipynb"
          answers_file := nb.dirName ++ "/" ++ nb.name ++ "-ANSWERS.ipynb"
          data_file :=
            if truthy? (lookup? metadata "data_files") then
              some (nb.dirName ++ "/" ++ nb.name ++ "-data.zip")
            else none
          sectionTitle := nb.dirName
          order := match lookup? metadata "order" with
            | some (.num n) => some n
            | _ => none
          links := lookup? metadata "links"
          slides := lookup? metadata "slides" }

/-- Section declaration from the config (`data_files` empty means the key
is absent or falsy). -/
structure SectionCfg where
  folder : String
  title : String
  slides : Option String
  draft : Bool
  description : String
  icon : Option String
  data_files : List String
deriving Repr, DecidableEq

/-- A record collected by `main` for the index: either the single
placeholder of a draft section, or a processed item with the section
title/folder/slides fields `main` adds to the summary. -/
inductive IndexRecord where
  | draftItem (sectionTitle : String) (folder : String) (description : String)
  | item (info : Summary) (sectionTitle : String) (folder : String)
      (sectionSlides : Option String)
deriving Repr, DecidableEq

/-- Notebook loop of `main` over one section folder: a fatal notebook stops
the process (`sys.exit(1)` propagates), a skipped notebook contributes
nothing, a processed one appends its record. -/
def processItems (existsFiles : List String) (cfg : Config) (sec : SectionCfg) :
    List NotebookSrc → List IndexRecord → Except Unit (List IndexRecord)
  | [], acc => .ok acc
  | nb :: rest, acc =>
    match process_notebook existsFiles cfg nb with
    | .skipped => processItems existsFiles cfg sec rest acc
    | .fatal => .error ()
    | .ok _ _ info =>
      processItems existsFiles cfg sec rest
        (acc ++ [.item info sec.title sec.folder sec.slides])

/-- Section handling of `main` (lines 1662-1724): a draft section yields
exactly its placeholder record and processes no files; otherwise the
section's notebook files are processed in order.  (Markdown files and the
section-level data zip are disk side effects outside this model.) -/
def processSection (existsFiles : List String) (cfg : Config)
    (sec : SectionCfg) (files : List NotebookSrc) : Except Unit (List IndexRecord) :=
  if sec.draft then .ok [.draftItem sec.title sec.folder sec.description]
  else processItems existsFiles cfg sec files []

/-- The full section loop of `main`. -/
def processSections (existsFiles : List String) (cfg : Config) :
    List (SectionCfg × List NotebookSrc) → List IndexRecord →
    Except Unit (List IndexRecord)
  | [], acc => .ok acc
  | (sec, files) :: rest, acc =>
    match processSection existsFiles cfg sec files with
    | .ok items => processSections existsFiles cfg rest (acc ++ items)
    | .error e => .error e

/-! Index builder: sorting and section rendering (`create_index`). -/

/-- Stable insertion used to model Python's stable `sorted`: an element
moves past every strictly smaller element and stops before equal ones, so
the input order of equal elements is preserved. -/
def insertStable {α : Type} (le : α → α → Bool) (a : α) : List α → List α
  | [] => [a]
  | b :: l => if le b a && !(le a b) then b :: insertStable le a l else a :: b :: l

/-- Model of Python's `sorted(l, key=...)` under the boolean comparison of
keys `le`: a stable ascending sort. -/
def pySorted {α : Type} (le : α → α → Bool) : List α → List α
  | [] => []
  | x :: xs => insertStable le x (pySorted le xs)

theorem insertStable_perm {α : Type} (le : α → α → Bool) (a : α) (l : List α) :
    List.Perm (insertStable le a l) (a :: l) := by
  induction l with
  | nil => simp [insertStable]
  | cons b t ih =>
    by_cases hc : le b a && !(le a b)
    · simp only [insertStable, if_pos hc]
      exact ((ih.cons b).trans (List.Perm.swap a b t))
    · simp [insertStable, hc]

theorem pySorted_perm {α : Type} (le : α → α → Bool) (l : List α) :
    List.Perm (pySorted le l) l := by
  induction l with
  | nil => simp [pySorted]
  | cons x xs ih => exact (insertStable_perm le x (pySorted le xs)).trans (ih.cons x)

theorem mem_insertStable {α : Type} (le : α → α → Bool) (a x : α) (l : List α) :
    x ∈ insertStable le a l ↔ x = a ∨ x ∈ l := by
  rw [(insertStable_perm le a l).mem_iff]
  simp

theorem pairwise_insertStable {α : Type} (le : α → α → Bool)
    (htot : ∀ a b, le a b = true ∨ le b a = true)
    (htr : ∀ a b c, le a b = true → le b c = true → le a c = true)
    (a : α) (l : List α) (h : l.Pairwise (fun x y => le x y = true)) :
    (insertStable le a l).Pairwise (fun x y => le x y = true) := by
  induction l with
  | nil => simp [insertStable]
  | cons b t ih =>
    rw [List.pairwise_cons] at h
    obtain ⟨hb, ht⟩ := h
    by_cases hc : le b a && !(le a b)
    · simp only [insertStable, if_pos hc]
      rw [List.pairwise_cons]
      simp only [Bool.and_eq_true, Bool.not_eq_true'] at hc
      refine ⟨?_, ih ht⟩
      intro y hy
      rcases (mem_insertStable le a y t).1 hy with hy | hy
      · subst hy
        exact hc.1
      · exact hb y hy
    · have hab : le a b = true := by
        rcases htot a b with h1 | h1
        · exact h1
        · by_cases h2 : le a b = true
          · exact h2
          · exact absurd (by simp [h1, h2]) hc
      simp only [insertStable, if_neg hc]
      rw [List.pairwise_cons]
      refine ⟨?_, by rw [List.pairwise_cons]; exact ⟨hb, ht⟩⟩
      intro y hy
      rcases List.mem_cons.1 hy with hy | hy
      · subst hy; exact hab
      · exact htr a b y hab (hb y hy)

theorem pairwise_pySorted {α : Type} (le : α → α → Bool)
    (htot : ∀ a b, le a b = true ∨ le b a = true)
    (htr : ∀ a b c, le a b = true → le b c = true → le a c = true)
    (l : List α) : (pySorted le l).Pairwise (fun x y => le x y = true) := by
  induction l with
  | nil => simp [pySorted]
  | cons x xs ih => exact pairwise_insertStable le htot htr x (pySorted le xs) ih

/-- Lexicographic comparison of character lists by code point, as Python
compares strings. -/
def charListLe : List Char → List Char → Bool
  | [], _ => true
  | _ :: _, [] => false
  | a :: as, b :: bs =>
    if a.toNat < b.toNat then true
    else if b.toNat < a.toNat then false
    else charListLe as bs

/-- Python string comparison `a <= b`. -/
def pyStrLe (a b : String) : Bool := charListLe a.toList b.toList

theorem charListLe_total (as : List Char) : ∀ (bs : List Char),
    charListLe as bs = true ∨ charListLe bs as = true := by
  induction as with
  | nil => intro bs; left; rfl
  | cons a as2 ih =>
    intro bs
    cases bs with
    | nil => right; rfl
    | cons b bs2 =>
      by_cases h1 : a.toNat < b.toNat
      · left; simp [charListLe, h1]
      · by_cases h2 : b.toNat < a.toNat
        · right; simp [charListLe, h2]
        · rcases ih bs2 with h | h
          · left; simp [charListLe, h1, h2, h]
          · right; simp [charListLe, h1, h2, h]

theorem charListLe_trans (as : List Char) : ∀ (bs cs : List Char),
    charListLe as bs = true → charListLe bs cs = true →
    charListLe as cs = true := by
  induction as with
  | nil => intro bs cs _ _; rfl
  | cons a as2 ih =>
    intro bs cs h1 h2
    cases bs with
    | nil => simp [charListLe] at h1
    | cons b bs2 =>
      cases cs with
      | nil => simp [charListLe] at h2
      | cons c cs2 =>
        simp only [charListLe] at h1 h2 ⊢
        by_cases hab : a.toNat < b.toNat
        · by_cases hbc : b.toNat < c.toNat
          · have : a.toNat < c.toNat := by omega
            simp [this]
          · by_cases hcb : c.toNat < b.toNat
            · rw [if_neg hbc, if_pos hcb] at h2
              cases h2
            · have : a.toNat < c.toNat := by omega
              simp [this]
        · by_cases hba : b.toNat < a.toNat
          · rw [if_neg hab, if_pos hba] at h1
            cases h1
          · by_cases hbc : b.toNat < c.toNat
            · have : a.toNat < c.toNat := by omega
              simp [this]
            · by_cases hcb : c.toNat < b.toNat
              · rw [if_neg hbc, if_pos hcb] at h2
                cases h2
              · rw [if_neg hab, if_neg hba] at h1
                rw [if_neg hbc, if_neg hcb] at h2
                have hac : ¬ (a.toNat < c.toNat) := by omega
                have hca : ¬ (c.toNat < a.toNat) := by omega
                rw [if_neg hac, if_neg hca]
                exact ih bs2 cs2 h1 h2

/-- Ordering key of an index record (`item.get('order')`; draft placeholder
records carry no key). -/
def recOrderKey : IndexRecord → Option Int
  | .draftItem _ _ _ => none
  | .item info _ _ _ => info.order

/-- Name of an index record (`item.get('name', '')`). -/
def recName : IndexRecord → String
  | .draftItem _ _ _ => ""
  | .item info _ _ _ => info.name

/-- Section title of an index record (`nb['section']`). -/
def recSection : IndexRecord → String
  | .draftItem t _ _ => t
  | .item _ t _ _ => t

/-- The `sort_key` comparison of `create_index` (lines 1139-1143): Python
compares the tuples `(0, order, '')` for ordered and `(1, 0, name)` for
unordered items lexicographically. -/
def sortKeyLe (a b : IndexRecord) : Bool :=
  match recOrderKey a, recOrderKey b with
  | some x, some y => decide (x ≤ y)
  | some _, none => true
  | none, some _ => false
  | none, none => pyStrLe (recName a) (recName b)

/-- Key comparison of the descending re-sort of unordered items
(`sorted(..., key=name, reverse=True)`). -/
def nameDescLe (a b : IndexRecord) : Bool := pyStrLe (recName b) (recName a)

/-- Item ordering of `create_index` (lines 1138-1150): a stable sort of the
whole section by `sort_key`, after which the ordered items are kept in that
(ascending) order and the unordered items are re-sorted descending by
name. -/
def sortItemsForIndex (items : List IndexRecord) : List IndexRecord :=
  let sorted := pySorted sortKeyLe items
  let withOrder := sorted.filter (fun r => (recOrderKey r).isSome)
  let withoutOrder :=
    pySorted nameDescLe (sorted.filter (fun r => (recOrderKey r).isNone))
  withOrder ++ withoutOrder

theorem sortKeyLe_total (a b : IndexRecord) :
    sortKeyLe a b = true ∨ sortKeyLe b a = true := by
  unfold sortKeyLe
  cases recOrderKey a with
  | none =>
    cases recOrderKey b with
    | none =>
      exact charListLe_total (recName a).toList (recName b).toList
    | some y => right; rfl
  | some x =>
    cases recOrderKey b with
    | none => left; rfl
    | some y =>
      rcases le_total x y with h | h
      · left; simpa using h
      · right; simpa using h

theorem sortKeyLe_trans (a b c : IndexRecord)
    (h1 : sortKeyLe a b = true) (h2 : sortKeyLe b c = true) :
    sortKeyLe a c = true := by
  unfold sortKeyLe at h1 h2 ⊢
  cases ha : recOrderKey a with
  | none =>
    cases hb : recOrderKey b with
    | none =>
      cases hc : recOrderKey c with
      | none =>
        rw [ha, hb] at h1
        rw [hb, hc] at h2
        exact charListLe_trans _ _ _ h1 h2
      | some z =>
        rw [hb, hc] at h2
        simp at h2
    | some y =>
      rw [ha, hb] at h1
      simp at h1
  | some x =>
    cases hc : recOrderKey c with
    | none => rfl
    | some z =>
      cases hb : recOrderKey b with
      | none =>
        rw [hb, hc] at h2
        simp at h2
      | some y =>
        rw [ha, hb] at h1
        rw [hb, hc] at h2
        simp only [decide_eq_true_eq] at h1 h2 ⊢
        exact le_trans h1 h2

theorem nameDescLe_total (a b : IndexRecord) :
    nameDescLe a b = true ∨ nameDescLe b a = true := by
  unfold nameDescLe
  exact (charListLe_total (recName b).toList (recName a).toList).symm.symm

theorem nameDescLe_trans (a b c : IndexRecord)
    (h1 : nameDescLe a b = true) (h2 : nameDescLe b c = true) :
    nameDescLe a c = true := by
  unfold nameDescLe at h1 h2 ⊢
  exact charListLe_trans _ _ _ h2 h1

/-- Relation holding between every earlier item `a` and later item `b` of a
rendered section: an unordered item is never followed by an ordered one
(so all ordered items come first), ordered items ascend by key, and
unordered items descend by name. -/
def c1Rel (a b : IndexRecord) : Prop :=
  (recOrderKey a = none → recOrderKey b = none) ∧
  (∀ x y, recOrderKey a = some x → recOrderKey b = some y → x ≤ y) ∧
  (recOrderKey a = none → recOrderKey b = none → pyStrLe (recName b) (recName a) = true)

/-- Example record for the index-ordering test case. -/
def c1ExampleItem (nm : String) (o : Option Int) : IndexRecord :=
  .item ⟨nm, .str nm, .str "", nm ++ ".ipynb", nm ++ "-ANSWERS.ipynb", none,
    "s", o, none, none⟩ "s" "sec" none

/-- C1: in every section of the index, items with an ordering key are
rendered before items without one, the keyed items ascend by key, the
unkeyed items descend by name, and the rendered list is a permutation of
the section's records; on the four-item example `b(2), a(1), z(-), x(-)`
the rendered order is `a, b, z, x`. -/
theorem c1_index_item_ordering :
    (∀ items : List IndexRecord,
      (sortItemsForIndex items).Pairwise c1Rel ∧
      List.Perm (sortItemsForIndex items) items) ∧
    sortItemsForIndex
        [c1ExampleItem "b" (some 2), c1ExampleItem "a" (some 1),
         c1ExampleItem "z" none, c1ExampleItem "x" none]
      = [c1ExampleItem "a" (some 1), c1ExampleItem "b" (some 2),
         c1ExampleItem "z" none, c1ExampleItem "x" none] := by
  constructor
  · intro items
    have hisNone : ∀ (o : Option Int), o.isNone = !o.isSome := by
      intro o; cases o <;> rfl
    constructor
    · unfold sortItemsForIndex
      rw [List.pairwise_append]
      have hs := pairwise_pySorted sortKeyLe sortKeyLe_total sortKeyLe_trans items
      refine ⟨?_, ?_, ?_⟩
      · have hf := List.Pairwise.sublist
          (@List.filter_sublist IndexRecord
            (fun r => (recOrderKey r).isSome) (pySorted sortKeyLe items)) hs
        refine List.Pairwise.imp_of_mem ?_ hf
        intro a b ha hb hle
        have ha2 := (List.mem_filter.1 ha).2
        have hb2 := (List.mem_filter.1 hb).2
        simp only [Option.isSome_iff_exists] at ha2 hb2
        obtain ⟨x, hx⟩ := ha2
        obtain ⟨y, hy⟩ := hb2
        refine ⟨?_, ?_, ?_⟩
        · intro h0; rw [h0] at hx; cases hx
        · intro x2 y2 hx2 hy2
          unfold sortKeyLe at hle
          rw [hx2, hy2] at hle
          simpa using hle
        · intro h0; rw [h0] at hx; cases hx
      · have hp := pairwise_pySorted nameDescLe nameDescLe_total nameDescLe_trans
          ((pySorted sortKeyLe items).filter (fun r => (recOrderKey r).isNone))
        refine List.Pairwise.imp_of_mem ?_ hp
        intro a b ha hb hle
        have ha2 := (List.mem_filter.1
          ((pySorted_perm nameDescLe _).mem_iff.1 ha)).2
        have hb2 := (List.mem_filter.1
          ((pySorted_perm nameDescLe _).mem_iff.1 hb)).2
        simp only [Option.isNone_iff_eq_none] at ha2 hb2
        refine ⟨fun _ => hb2, ?_, ?_⟩
        · intro x y hx hy
          rw [hx] at ha2; cases ha2
        · intro _ _
          unfold nameDescLe at hle
          exact hle
      · intro a ha b hb
        have ha2 := (List.mem_filter.1 ha).2
        have hb2 := (List.mem_filter.1
          ((pySorted_perm nameDescLe _).mem_iff.1 hb)).2
        simp only [Option.isSome_iff_exists] at ha2
        simp only [Option.isNone_iff_eq_none] at hb2
        obtain ⟨x, hx⟩ := ha2
        refine ⟨fun _ => hb2, ?_, ?_⟩
        · intro x2 y2 hx2 hy2
          rw [hy2] at hb2; cases hb2
        · intro h0
          rw [h0] at hx; cases hx
    · unfold sortItemsForIndex
      have h1 : List.Perm
          (pySorted nameDescLe
            ((pySorted sortKeyLe items).filter (fun r => (recOrderKey r).isNone)))
          ((pySorted sortKeyLe items).filter (fun r => (recOrderKey r).isNone)) :=
        pySorted_perm _ _
      have h2 := List.Perm.append_left
        ((pySorted sortKeyLe items).filter (fun r => (recOrderKey r).isSome)) h1
      refine h2.trans ?_
      have h3 : ((pySorted sortKeyLe items).filter (fun r => (recOrderKey r).isNone))
          = ((pySorted sortKeyLe items).filter
              (fun r => !(recOrderKey r).isSome)) := by
        refine List.filter_congr ?_
        intro r _
        cases hr : recOrderKey r <;> simp [hr]
      rw [h3]
      exact (List.filter_append_perm _ _).trans (pySorted_perm _ _)
  · decide

/-- Folder of an index record (`section_folder`). -/
def recFolder : IndexRecord → String
  | .draftItem _ f _ => f
  | .item _ _ f _ => f

/-- Plain-text rendering of a metadata value in an f-string; non-scalar
values do not occur in the fields the index interpolates. -/
def valueText : Value → String
  | .str s => s
  | .num n => toString n
  | .list _ => ""
  | .dict _ => ""

/-- Lines rendered for one `links` entry list (lines 1199-1211). -/
def linkLines (v : Value) : List String :=
  match v with
  | .list ls =>
    ls.flatMap (fun l =>
      match l with
      | .dict d =>
        let nm := valueText (getD d "name" (.str "Link"))
        let url := valueText (getD d "url" (.str "#"))
        let desc := valueText (getD d "description" (.str ""))
        if desc ≠ "" then
          ["<li><a href=\"" ++ url ++ "\">" ++ nm ++ "</a> " ++ desc ++ "</li>\n"]
        else
          ["<li><a href=\"" ++ url ++ "\">" ++ nm ++ "</a></li>\n"]
      | _ => [])
  | _ => []

/-- Lines rendered for one notebook item of a section (lines 1157-1212;
markdown items are not produced by the modelled pipeline). -/
def renderItemLines (cfg : Config) (iconPre : String) (r : IndexRecord) : List String :=
  match r with
  | .draftItem _ _ _ => []
  | .item info _ _ sectionSlides =>
    let colab := "https://colab.research.google.com/github/" ++ cfg.github_repo
      ++ "/blob/" ++ cfg.github_branch ++ "/" ++ cfg.output_dir ++ "/" ++ info.exercise_file
    let answersColab := "https://colab.research.google.com/github/" ++ cfg.github_repo
      ++ "/blob/" ++ cfg.github_branch ++ "/" ++ cfg.output_dir ++ "/" ++ info.answers_file
    ["### " ++ iconPre ++ "[" ++ valueText info.title ++ " →](" ++ colab ++ ")\n"]
    ++ (if truthy info.description then [valueText info.description ++ "\n"] else [])
    ++ ["<div class=\"resource-buttons\">\n",
        "<a href=\"" ++ colab ++ "\" class=\"resource-button primary\">🚀 Open in Colab</a>\n",
        "<a href=\"" ++ answersColab ++ "\" class=\"resource-button completed\">✓ Completed (Colab)</a>\n",
        "</div>\n",
        "<div class=\"download-links\">\n",
        "📓 Download: <a href=\"./" ++ info.exercise_file ++ "\">worksheet</a> | ",
        "<a href=\"./" ++ info.answers_file ++ "\">completed</a><br>\n"]
    ++ (match info.data_file with
        | some df => ["📦 Data: <a href=\"./" ++ df ++ "\">" ++ df ++ "</a>\n"]
        | none => [])
    ++ ["</div>\n"]
    ++ (match info.slides with
        | some sv =>
          if truthy sv && decide (some sv ≠ sectionSlides.map Value.str) then
            ["<div style=\"margin: 0.5em 0; color: #666;\">📑 Slides: <a href=\"./"
              ++ valueText sv ++ "\">" ++ baseName (valueText sv) ++ "</a></div>\n"]
          else []
        | none => [])
    ++ (match info.links with
        | some lv =>
          if truthy lv then
            ["\n**Links:**\n\n", "<ul>"] ++ linkLines lv ++ ["</ul>", "\n\n", ""]
          else []
        | none => [])

/-- Lines rendered for one section of the index (`create_index`,
lines 1105-1212): the heading, then — for the singleton draft placeholder —
only the description and the fixed notice; otherwise the section slide
embed (`generate_slide_embed` is modelled by the `slideEmbed` oracle since
its output depends on external converters), the section data box, and the
sorted items. -/
def renderSection (cfg : Config) (secCfg : Option SectionCfg) (sectionName : String)
    (sectionItems : List IndexRecord) (slideEmbed : String → String) : List String :=
  let head := ["\n## " ++ sectionName ++ "\n"]
  match sectionItems with
  | [IndexRecord.draftItem _ _ desc] =>
    head ++ (if desc ≠ "" then ["\n" ++ desc ++ "\n\n"] else []) ++
      ["*Content will be uploaded later.*\n"]
  | _ =>
    let iconPre := match secCfg with
      | some sc =>
        (match sc.icon with
         | some ic => if ic ≠ "" then ic ++ " " else ""
         | none => "")
      | none => ""
    let slideBlock := match secCfg with
      | some sc =>
        (match sc.slides with
         | some sl => if sl ≠ "" then ["\n" ++ slideEmbed sl ++ "\n"] else []
         | none => [])
      | none => []
    let dataBlock := match secCfg with
      | some sc =>
        if sc.data_files ≠ ([] : List String) then
          (let secFolder := match sectionItems with
            | r :: _ => recFolder r
            | [] => sc.folder
           if secFolder ≠ "" then
             ["\n<div class=\"download-box\">\n<strong>Section files:</strong> <a href=\"./"
               ++ secFolder ++ "/" ++ baseName secFolder ++ "-data.zip\">📦 "
               ++ baseName secFolder ++ "-data.zip</a>\n</div>\n\n"]
           else [])
        else []
      | none => []
    head ++ slideBlock ++ dataBlock ++
      (sortItemsForIndex sectionItems).flatMap (renderItemLines cfg iconPre)

/-- Section titles in first-appearance order (the `sections` grouping
dictionary of `create_index`). -/
def sectionTitlesOf (items : List IndexRecord) : List String :=
  items.foldl (fun acc r => if recSection r ∈ acc then acc else acc ++ [recSection r]) []

/-- Section display order: config-declared sections that have records, in
config order, then any remaining section titles alphabetically. -/
def sectionOrderOf (secs : List SectionCfg) (items : List IndexRecord) : List String :=
  let titles := sectionTitlesOf items
  let fromCfg := (secs.map (fun s => s.title)).filter (fun t => t ∈ titles)
  fromCfg ++ (pySorted pyStrLe titles).filter (fun t => t ∉ fromCfg)

/-- The per-section body of the index page (root-level content and the
final HTML template substitution render around this and are outside the
model).  Duplicate section titles resolve to the last declaration, as the
`section_configs` dictionary assignment does. -/
def create_index_body (cfg : Config) (secs : List SectionCfg)
    (items : List IndexRecord) (slideEmbed : String → String) : List String :=
  (sectionOrderOf secs items).flatMap (fun t =>
    renderSection cfg ((secs.reverse).find? (fun s => s.title = t)) t
      (items.filter (fun r => recSection r = t)) slideEmbed)

/-- Model of `main` after config load: process every section, then build the
index.  Any fatal notebook (`sys.exit(1)`) aborts with a non-zero exit
before `create_index` runs, so no index content is produced. -/
def main_model (existsFiles : List String) (cfg : Config)
    (secs : List (SectionCfg × List NotebookSrc)) (slideEmbed : String → String) :
    Except Unit (List IndexRecord × List String) :=
  match processSections existsFiles cfg secs [] with
  | .error e => .error e
  | .ok items => .ok (items, create_index_body cfg (secs.map Prod.fst) items slideEmbed)

/-! Claims about the notebook processor and the pipeline. -/

theorem hasSolutionTag_clearIfCode (c : Cell) :
    hasSolutionTag (clearIfCode c) = hasSolutionTag c := by
  by_cases h : c.cell_type = "code" <;> simp [clearIfCode, h, hasSolutionTag]

/-- C2: every solution-tagged cell becomes the empty code cell in the
exercise variant and every code cell of the exercise variant loses its
outputs and execution count, while the answers variant keeps the original
cells; both variants carry the same generated prefix, so at prefix offset
plus `i` the exercise variant holds the processed form of cell `i` and the
answers variant holds cell `i` unchanged. -/
theorem c2_solution_cells_replaced (existsFiles : List String) (cfg : Config)
    (nb : NotebookSrc) (ex co : List Cell) (info : Summary)
    (h : process_notebook existsFiles cfg nb = .ok ex co info) :
    ex = processPre
        (apply_metadata_overrides (nb.dirPath ++ "/" ++ nb.name ++ ".ipynb")
          (nb.name ++ ".ipynb") nb.workshop cfg.rules) cfg nb
      ++ nb.cells.map exerciseCell ∧
    co = processPre
        (apply_metadata_overrides (nb.dirPath ++ "/" ++ nb.name ++ ".ipynb")
          (nb.name ++ ".ipynb") nb.workshop cfg.rules) cfg nb
      ++ nb.cells ∧
    (∀ c ∈ nb.cells, hasSolutionTag c = true → exerciseCell c = emptySolutionCell) ∧
    (∀ c ∈ nb.cells, c.cell_type = "code" →
      (exerciseCell c).outputs = [] ∧ (exerciseCell c).execution_count = none) ∧
    (∀ i, i < nb.cells.length →
      ex[(processPre
          (apply_metadata_overrides (nb.dirPath ++ "/" ++ nb.name ++ ".ipynb")
            (nb.name ++ ".ipynb") nb.workshop cfg.rules) cfg nb).length + i]?
        = (nb.cells[i]?).map exerciseCell ∧
      co[(processPre
          (apply_metadata_overrides (nb.dirPath ++ "/" ++ nb.name ++ ".ipynb")
            (nb.name ++ ".ipynb") nb.workshop cfg.rules) cfg nb).length + i]?
        = nb.cells[i]?) := by
  unfold process_notebook at h
  simp only [] at h
  split at h
  · cases h
  · split at h
    · cases h
    · rw [ProcResult.ok.injEq] at h
      obtain ⟨h1, h2, _⟩ := h
      refine ⟨h1.symm, h2.symm, ?_, ?_, ?_⟩
      · intro c _ htag
        have hc := hasSolutionTag_clearIfCode c
        rw [htag] at hc
        simp [exerciseCell, hc]
      · intro c _ hcode
        by_cases htag : hasSolutionTag (clearIfCode c) = true
        · simp [exerciseCell, htag, emptySolutionCell]
        · simp only [exerciseCell]
          rw [if_neg htag]
          simp [clearIfCode, hcode]
      · intro i _
        rw [← h1, ← h2]
        constructor
        · rw [List.getElem?_append_right (by omega)]
          simp [List.getElem?_map]
        · rw [List.getElem?_append_right (by omega)]
          simp

set_option maxHeartbeats 1000000 in
/-- Witness for C2 at a concrete two-cell notebook with one solution cell. -/
theorem c2_solution_cells_replaced_witness :
    process_notebook [] ⟨"o/r", "main", "docs", []⟩
        ⟨"nb1", "sec", "sec",
          [⟨"markdown", none, ["hello"], [], none⟩,
           ⟨"code", some ["solution"], ["x = 1"], ["out"], some 3⟩],
          [("title", Value.str "T")]⟩
      = .ok
          [⟨"markdown", none, ["hello"], [], none⟩, emptySolutionCell]
          [⟨"markdown", none, ["hello"], [], none⟩,
           ⟨"code", some ["solution"], ["x = 1"], ["out"], some 3⟩]
          ⟨"nb1", Value.str "T", Value.str "", "sec/nb1.ipynb",
            "sec/nb1-ANSWERS.ipynb", none, "sec", none, none, none⟩ ∧
    [⟨"markdown", none, ["hello"], [], none⟩, emptySolutionCell]
      = processPre
          (apply_metadata_overrides ("sec" ++ "/" ++ "nb1" ++ ".ipynb")
            ("nb1" ++ ".ipynb") [("title", Value.str "T")] [])
          ⟨"o/r", "main", "docs", []⟩
          ⟨"nb1", "sec", "sec",
            [⟨"markdown", none, ["hello"], [], none⟩,
             ⟨"code", some ["solution"], ["x = 1"], ["out"], some 3⟩],
            [("title", Value.str "T")]⟩
        ++ [⟨"markdown", none, ["hello"], [], none⟩,
            ⟨"code", some ["solution"], ["x = 1"], ["out"], some 3⟩].map exerciseCell :=
  ⟨by decide,
    (c2_solution_cells_replaced []
      ⟨"o/r", "main", "docs", []⟩
      ⟨"nb1", "sec", "sec",
        [⟨"markdown", none, ["hello"], [], none⟩,
         ⟨"code", some ["solution"], ["x = 1"], ["out"], some 3⟩],
        [("title", Value.str "T")]⟩
      [⟨"markdown", none, ["hello"], [], none⟩, emptySolutionCell]
      [⟨"markdown", none, ["hello"], [], none⟩,
       ⟨"code", some ["solution"], ["x = 1"], ["out"], some 3⟩]
      ⟨"nb1", Value.str "T", Value.str "", "sec/nb1.ipynb",
        "sec/nb1-ANSWERS.ipynb", none, "sec", none, none, none⟩
      (by decide)).1⟩

/-- C6 counterexample: a notebook whose embedded workshop metadata block is
empty is not skipped when a matching metadata-override rule fills the
merged metadata — the skip test runs after the override merge. -/
theorem c6_absent_metadata_not_always_skipped :
    (⟨"intro", "sec", "sec", [], []⟩ : NotebookSrc).workshop = [] ∧
    process_notebook [] ⟨"o/r", "main", "docs", [("*", [("title", Value.str "X")])]⟩
        ⟨"intro", "sec", "sec", [], []⟩
      ≠ ProcResult.skipped :=
  ⟨rfl, by decide⟩

/-- C6 (amended): a notebook whose merged metadata — embedded block plus
matching overrides — is empty is skipped: `process_notebook` returns no
summary record and no error, and the pipeline collects nothing for it. -/
theorem c6_empty_merged_metadata_skips (existsFiles : List String) (cfg : Config)
    (nb : NotebookSrc)
    (h : apply_metadata_overrides (nb.dirPath ++ "/" ++ nb.name ++ ".ipynb")
      (nb.name ++ ".ipynb") nb.workshop cfg.rules = []) :
    process_notebook existsFiles cfg nb = .skipped ∧
    (∀ (sec : SectionCfg) (rest : List NotebookSrc) (acc : List IndexRecord),
      processItems existsFiles cfg sec (nb :: rest) acc
        = processItems existsFiles cfg sec rest acc) := by
  have h1 : process_notebook existsFiles cfg nb = .skipped := by
    simp [process_notebook, h]
  exact ⟨h1, fun sec rest acc => by simp [processItems, h1]⟩

/-- Witness for the amended C6 theorem at a concrete input. -/
theorem c6_empty_merged_metadata_skips_witness :
    apply_metadata_overrides ("sec" ++ "/" ++ "intro" ++ ".ipynb")
        ("intro" ++ ".ipynb") ([] : Entries) [] = [] ∧
    process_notebook [] ⟨"o/r", "main", "docs", []⟩ ⟨"intro", "sec", "sec", [], []⟩
      = ProcResult.skipped :=
  ⟨by decide,
    (c6_empty_merged_metadata_skips [] ⟨"o/r", "main", "docs", []⟩
      ⟨"intro", "sec", "sec", [], []⟩ (by decide)).1⟩

theorem processItems_error_of_fatal (existsFiles : List String) (cfg : Config)
    (sec : SectionCfg) (files : List NotebookSrc) (nb : NotebookSrc)
    (hmem : nb ∈ files) (hf : process_notebook existsFiles cfg nb = .fatal) :
    ∀ (acc : List IndexRecord),
    processItems existsFiles cfg sec files acc = .error () := by
  induction files with
  | nil => cases hmem
  | cons f rest ih =>
    intro acc
    rcases List.mem_cons.1 hmem with he | he
    · subst he
      simp [processItems, hf]
    · cases hp : process_notebook existsFiles cfg f with
      | skipped => simp [processItems, hp]; exact ih he _
      | fatal => simp [processItems, hp]
      | ok ex co info => simp [processItems, hp]; exact ih he _

theorem processSections_error_of_member (existsFiles : List String) (cfg : Config)
    (secs : List (SectionCfg × List NotebookSrc)) (sec : SectionCfg)
    (files : List NotebookSrc)
    (hmem : (sec, files) ∈ secs)
    (he : processSection existsFiles cfg sec files = .error ()) :
    ∀ (acc : List IndexRecord),
    processSections existsFiles cfg secs acc = .error () := by
  induction secs with
  | nil => cases hmem
  | cons sf rest ih =>
    intro acc
    obtain ⟨s1, f1⟩ := sf
    rcases List.mem_cons.1 hmem with hh | hh
    · rw [Prod.mk.injEq] at hh
      obtain ⟨hh1, hh2⟩ := hh
      subst hh1
      subst hh2
      simp [processSections, he]
    · cases hp : processSection existsFiles cfg s1 f1 with
      | ok items => simp [processSections, hp]; exact ih hh _
      | error e => simp [processSections, hp]

/-- C7: an item whose merged metadata declares a slide reference that
resolves neither relative to the notebook's directory nor as a project-root
path makes `process_notebook` fatal (`sys.exit(1)`), and the whole run
aborts with a non-zero exit before any index content is produced. -/
theorem c7_missing_slide_is_fatal (existsFiles : List String) (cfg : Config)
    (secs : List (SectionCfg × List NotebookSrc)) (sec : SectionCfg)
    (files : List NotebookSrc) (nb : NotebookSrc) (s : String)
    (slideEmbed : String → String)
    (hsec : (sec, files) ∈ secs) (hdraft : sec.draft = false) (hnb : nb ∈ files)
    (hslides : lookup?
        (apply_metadata_overrides (nb.dirPath ++ "/" ++ nb.name ++ ".ipynb")
          (nb.name ++ ".ipynb") nb.workshop cfg.rules) "slides"
      = some (.str s))
    (hne : s ≠ "") (hnores : slideResolves existsFiles nb.dirPath s = false) :
    process_notebook existsFiles cfg nb = .fatal ∧
    main_model existsFiles cfg secs slideEmbed = .error () := by
  have hmeta : apply_metadata_overrides (nb.dirPath ++ "/" ++ nb.name ++ ".ipynb")
      (nb.name ++ ".ipynb") nb.workshop cfg.rules ≠ [] := by
    intro h0
    rw [h0] at hslides
    simp [lookup?] at hslides
  have hfatal : process_notebook existsFiles cfg nb = .fatal := by
    unfold process_notebook
    rw [if_neg hmeta, hslides]
    simp [hne, hnores]
  refine ⟨hfatal, ?_⟩
  have hsecerr : processSection existsFiles cfg sec files = .error () := by
    unfold processSection
    rw [if_neg (by simp [hdraft])]
    exact processItems_error_of_fatal existsFiles cfg sec files nb hnb hfatal []
  unfold main_model
  rw [processSections_error_of_member existsFiles cfg secs sec files hsec hsecerr []]

/-- Witness for C7 at a concrete one-section, one-notebook run whose slide
file does not exist. -/
theorem c7_missing_slide_is_fatal_witness :
    process_notebook [] ⟨"o/r", "main", "docs", []⟩
        ⟨"nb1", "sec", "sec", [], [("slides", Value.str "deck.pdf")]⟩
      = ProcResult.fatal ∧
    main_model [] ⟨"o/r", "main", "docs", []⟩
        [(⟨"sec", "Section One", none, false, "", none, []⟩,
          [⟨"nb1", "sec", "sec", [], [("slides", Value.str "deck.pdf")]⟩])]
        (fun _ => "")
      = .error () :=
  c7_missing_slide_is_fatal [] ⟨"o/r", "main", "docs", []⟩
    [(⟨"sec", "Section One", none, false, "", none, []⟩,
      [⟨"nb1", "sec", "sec", [], [("slides", Value.str "deck.pdf")]⟩])]
    ⟨"sec", "Section One", none, false, "", none, []⟩
    [⟨"nb1", "sec", "sec", [], [("slides", Value.str "deck.pdf")]⟩]
    ⟨"nb1", "sec", "sec", [], [("slides", Value.str "deck.pdf")]⟩
    "deck.pdf" (fun _ => "")
    (by decide) (by decide) (by decide) (by decide) (by decide) (by decide)

/-- C8: a draft section contributes exactly one placeholder record and no
real items, and the index renders for it only the section heading, the
description (when present) and the fixed "coming later" notice — no item
entries. -/
theorem c8_draft_section_placeholder (existsFiles : List String) (cfg : Config)
    (sec : SectionCfg) (files : List NotebookSrc) (slideEmbed : String → String)
    (hdraft : sec.draft = true) :
    processSection existsFiles cfg sec files
      = .ok [.draftItem sec.title sec.folder sec.description] ∧
    renderSection cfg (some sec) sec.title
        [.draftItem sec.title sec.folder sec.description] slideEmbed
      = ["\n## " ++ sec.title ++ "\n"] ++
        (if sec.description ≠ "" then ["\n" ++ sec.description ++ "\n\n"] else []) ++
        ["*Content will be uploaded later.*\n"] := by
  constructor
  · simp [processSection, hdraft]
  · rfl

/-- Witness for C8 at a concrete draft section. -/
theorem c8_draft_section_placeholder_witness :
    (⟨"later", "Coming Soon", none, true, "More soon.", none, []⟩ : SectionCfg).draft
        = true ∧
    (processSection [] ⟨"o/r", "main", "docs", []⟩
        ⟨"later", "Coming Soon", none, true, "More soon.", none, []⟩
        [⟨"nb1", "later", "later", [], [("title", Value.str "T")]⟩]
      = .ok [.draftItem "Coming Soon" "later" "More soon."] ∧
    renderSection ⟨"o/r", "main", "docs", []⟩
        (some ⟨"later", "Coming Soon", none, true, "More soon.", none, []⟩)
        "Coming Soon" [.draftItem "Coming Soon" "later" "More soon."] (fun _ => "")
      = ["\n## " ++ "Coming Soon" ++ "\n"] ++
        (if "More soon." ≠ "" then ["\n" ++ "More soon." ++ "\n\n"] else []) ++
        ["*Content will be uploaded later.*\n"]) :=
  ⟨rfl,
    c8_draft_section_placeholder [] ⟨"o/r", "main", "docs", []⟩
      ⟨"later", "Coming Soon", none, true, "More soon.", none, []⟩
      [⟨"nb1", "later", "later", [], [("title", Value.str "T")]⟩]
      (fun _ => "") rfl⟩

/-! Table-of-contents generation (`generate_toc_from_markdown`). -/

/-- Split a character list at newlines (`content.split("\n")` semantics:
n separators yield n+1 pieces). -/
def splitOnNl : List Char → List (List Char)
  | [] => [[]]
  | x :: rest =>
    if x = '\n' then [] :: splitOnNl rest
    else
      match splitOnNl rest with
      | [] => [[x]]
      | g :: gs => (x :: g) :: gs

/-- Second-level headers found by `re.findall(r'^## (.+)$', content,
re.MULTILINE)`: lines beginning with `## ` followed by at least one
character. -/
def headersOf (content : String) : List String :=
  (splitOnNl content.toList).filterMap (fun l =>
    match l with
    | '#' :: '#' :: ' ' :: rest =>
      if rest ≠ ([] : List Char) then some (String.mk rest) else none
    | _ => none)

/-- Characters the anchor keeps: the ASCII reading of the regex class
`[\w\s-]` in `re.sub(r'[^\w\s-]', '', header)`. -/
def keepAnchorChar (c : Char) : Bool :=
  c.isAlphanum || c = '_' || c.isWhitespace || c = '-'

/-- Python `str.strip()` on a character list. -/
def trimChars (l : List Char) : List Char :=
  ((l.dropWhile Char.isWhitespace).reverse.dropWhile Char.isWhitespace).reverse

/-- Anchor derivation of `generate_toc_from_markdown`: strip the characters
outside `[\w\s-]`, strip surrounding whitespace, lowercase, and turn
spaces into hyphens (ASCII model of the regex classes and of `lower()`). -/
def anchorOf (h : String) : String :=
  let kept := trimChars (h.toList.filter keepAnchorChar)
  String.mk (kept.map (fun c =>
    let lc := c.toLower
    if lc = ' ' then '-' else lc))

/-- One table-of-contents entry line per header. -/
def tocEntry (h : String) : String :=
  "- [" ++ h ++ "](#" ++ anchorOf h ++ ")"

/-- Headers listed in the table of contents: a synthetic `Useful Links`
entry first when links are declared, then the body's `##` headers. -/
def tocHeaders (content : String) (hasUsefulLinks : Bool) : List String :=
  if hasUsefulLinks then "Useful Links" :: headersOf content else headersOf content

/-- Model of `generate_toc_from_markdown(markdown_content,
has_useful_links)`. -/
def generate_toc_from_markdown (content : String) (hasUsefulLinks : Bool) : String :=
  let headers := tocHeaders content hasUsefulLinks
  if headers = ([] : List String) then ""
  else
    String.intercalate "\n"
      ("## Table of Contents\n" :: headers.map tocEntry) ++ "\n"

/-- C9: the table of contents holds exactly one entry per second-level
header, plus the synthetic `Useful Links` entry when links are declared;
each entry's anchor lowercases the header, strips characters outside
letters/digits/underscore/whitespace/hyphen, and turns spaces into hyphens;
and the two-header example body with no links yields exactly the two
entries `#setup` and `#next-steps`. -/
theorem c9_toc_generation :
    (∀ (body : String) (links : Bool),
      generate_toc_from_markdown body links
        = (if tocHeaders body links = ([] : List String) then ""
           else String.intercalate "\n"
             ("## Table of Contents\n" :: (tocHeaders body links).map tocEntry)
             ++ "\n")) ∧
    (∀ (body : String),
      (tocHeaders body false).length = (headersOf body).length ∧
      (tocHeaders body true).length = (headersOf body).length + 1) ∧
    anchorOf "Setup" = "setup" ∧
    anchorOf "Next Steps" = "next-steps" ∧
    headersOf "## Setup\n...\n## Next Steps\n..." = ["Setup", "Next Steps"] ∧
    generate_toc_from_markdown "## Setup\n...\n## Next Steps\n..." false
      = "## Table of Contents\n\n- [Setup](#setup)\n- [Next Steps](#next-steps)\n" :=
  ⟨fun body links => rfl,
    fun body => ⟨by simp [tocHeaders], by simp [tocHeaders]⟩,
    by decide, by decide, by decide, by decide⟩

/-! Heap model of `_deep_merge` and `apply_metadata_overrides`, capturing
the frame property: the functions allocate fresh dictionaries and never
mutate their inputs. -/

/-- A heap value: a reference to a heap-allocated dictionary, or an
immutable primitive (strings, numbers; lists are never traversed or
mutated by the merge, so they count as primitives here). -/
inductive HVal where
  | prim (v : Value)
  | ref (a : Nat)
deriving Repr, DecidableEq

/-- Entries of a heap-allocated dictionary. -/
abbrev HObj := List (String × HVal)

/-- A heap: an allocation counter and a store of dictionary objects. -/
structure Heap where
  next : Nat
  store : List (Nat × HObj)
deriving Repr, DecidableEq

/-- The dictionary object at an address, if allocated. -/
def getObj (h : Heap) (a : Nat) : Option HObj :=
  (h.store.find? (fun p => p.1 = a)).map (fun p => p.2)

/-- Overwrite the object stored at an address. -/
def setStore : List (Nat × HObj) → Nat → HObj → List (Nat × HObj)
  | [], a, o => [(a, o)]
  | (a2, o2) :: rest, a, o =>
    if a2 = a then (a2, o) :: rest else (a2, o2) :: setStore rest a o

/-- Heap update of one dictionary object. -/
def setObj (h : Heap) (a : Nat) (o : HObj) : Heap :=
  ⟨h.next, setStore h.store a o⟩

/-- Allocate a fresh dictionary (`dict(...)` copies). -/
def alloc (h : Heap) (o : HObj) : Heap × Nat :=
  (⟨h.next + 1, (h.next, o) :: h.store⟩, h.next)

/-- Key lookup in a heap dictionary object. -/
def lookupH : HObj → String → Option HVal
  | [], _ => none
  | (k2, v) :: rest, k => if k2 = k then some v else lookupH rest k

/-- Key assignment in a heap dictionary object (replace in place or
append). -/
def setKeyH : HObj → String → HVal → HObj
  | [], k, v => [(k, v)]
  | (k2, v2) :: rest, k, v =>
    if k2 = k then (k2, v) :: rest else (k2, v2) :: setKeyH rest k v

mutual

/-- Heap-level `_deep_merge(base, override)`: a non-dictionary base is
treated as `{}`; the result is a freshly allocated copy of the base
(`result = dict(base)`) into which the override's items are merged.  Fuel
decreases at every call; any fixed fuel above the nesting depth of the
override suffices, and exhaustion (or a dangling reference) aborts with
`none`, leaving the heap as is. -/
def deepMergeH : Nat → Heap → HVal → Nat → Heap × Option Nat
  | 0, h, _, _ => (h, none)
  | fuel + 1, h, base, over =>
    let baseEntries := match base with
      | .ref a => (getObj h a).getD []
      | .prim _ => []
    match getObj h over with
    | none => (h, none)
    | some oEntries =>
      let p := alloc h baseEntries
      mergeEntriesH fuel p.1 p.2 oEntries

/-- The override loop of `_deep_merge`: for each item, a dictionary value
meeting a dictionary in the result is merged recursively into a fresh
dictionary stored at the key; any other value is stored as is (sharing the
reference, as Python assignment does). -/
def mergeEntriesH : Nat → Heap → Nat → HObj → Heap × Option Nat
  | _, h, r, [] => (h, some r)
  | 0, h, _, _ :: _ => (h, none)
  | fuel + 1, h, r, (k, v) :: rest =>
    match v with
    | .ref va =>
      (match lookupH ((getObj h r).getD []) k with
       | some (.ref ca) =>
         (match deepMergeH fuel h (.ref ca) va with
          | (h2, some sa) =>
            mergeEntriesH fuel
              (setObj h2 r (setKeyH ((getObj h2 r).getD []) k (.ref sa))) r rest
          | (h2, none) => (h2, none))
       | _ =>
         mergeEntriesH fuel
           (setObj h r (setKeyH ((getObj h r).getD []) k v)) r rest)
    | .prim _ =>
      mergeEntriesH fuel
        (setObj h r (setKeyH ((getObj h r).getD []) k v)) r rest

end

/-- Heap-level rule loop of `apply_metadata_overrides`: each matching
rule's values dictionary is deep-merged into the accumulator. -/
def applyRulesH : Nat → Heap → Nat → String → String → List (String × Nat) →
    Heap × Option Nat
  | _, h, m, _, _, [] => (h, some m)
  | fuel, h, m, rel, nm, (pat, va) :: rest =>
    if matchesRule rel nm pat then
      match deepMergeH fuel h (.ref m) va with
      | (h2, some m2) => applyRulesH fuel h2 m2 rel nm rest
      | (h2, none) => (h2, none)
    else applyRulesH fuel h m rel nm rest

/-- Heap-level `apply_metadata_overrides(file_path, meta, config)`:
`merged = dict(meta or {})` allocates a fresh copy, then the matching rules
are merged in declaration order. -/
def applyOverridesH (fuel : Nat) (h : Heap) (metaAddr : Nat) (rel nm : String)
    (rules : List (String × Nat)) : Heap × Option Nat :=
  let p := alloc h ((getObj h metaAddr).getD [])
  applyRulesH fuel p.1 p.2 rel nm rules

theorem getObj_setObj_ne (h : Heap) (r : Nat) (o : HObj) (a : Nat) (hne : a ≠ r) :
    getObj (setObj h r o) a = getObj h a := by
  show ((setStore h.store r o).find? (fun p => p.1 = a)).map _
    = (h.store.find? (fun p => p.1 = a)).map _
  induction h.store with
  | nil =>
    have hra : ¬ (r = a) := fun hh => hne hh.symm
    simp [setStore, List.find?, hra]
  | cons p rest ih =>
    obtain ⟨a2, o2⟩ := p
    by_cases h2 : a2 = r
    · subst h2
      have hna : ¬ (a2 = a) := fun hh => hne (hh.symm)
      simp [setStore, List.find?, hna]
    · by_cases h3 : a2 = a
      · subst h3
        simp [setStore, List.find?, h2]
      · simp [setStore, List.find?, h2, h3] at ih ⊢
        exact ih

theorem next_setObj (h : Heap) (r : Nat) (o : HObj) : (setObj h r o).next = h.next := rfl

theorem getObj_alloc_lt (h : Heap) (o : HObj) (a : Nat) (ha : a < h.next) :
    getObj (alloc h o).1 a = getObj h a := by
  show ((( h.next, o) :: h.store).find? (fun p => p.1 = a)).map _ = _
  have hne : ¬ (h.next = a) := by omega
  simp [List.find?, hne, getObj]

/-- Frame property of the heap-level merge, by induction on the fuel: no
address allocated before the call is written, the allocation counter only
grows, and a successful merge returns a fresh address. -/
theorem deepMergeH_frame (fuel : Nat) :
    (∀ (h : Heap) (base : HVal) (over : Nat) (h2 : Heap) (res : Option Nat),
      deepMergeH fuel h base over = (h2, res) →
      h.next ≤ h2.next ∧ (∀ a, a < h.next → getObj h2 a = getObj h a) ∧
      (∀ rr, res = some rr → h.next ≤ rr ∧ rr < h2.next)) ∧
    (∀ (es : HObj) (h : Heap) (r : Nat) (h2 : Heap) (res : Option Nat),
      mergeEntriesH fuel h r es = (h2, res) →
      h.next ≤ h2.next ∧ (∀ a, a < h.next → a ≠ r → getObj h2 a = getObj h a) ∧
      (∀ rr, res = some rr → rr = r)) := by
  induction fuel with
  | zero =>
    constructor
    · intro h base over h2 res heq
      rw [show deepMergeH 0 h base over = (h, none) from rfl] at heq
      rw [Prod.mk.injEq] at heq
      obtain ⟨h1, h2⟩ := heq
      subst h1
      subst h2
      exact ⟨le_refl _, fun a _ => rfl, fun rr hrr => by cases hrr⟩
    · intro es h r h2 res heq
      cases es with
      | nil =>
        rw [show mergeEntriesH 0 h r [] = (h, some r) from rfl] at heq
        rw [Prod.mk.injEq] at heq
        obtain ⟨he1, he2⟩ := heq
        subst he1
        subst he2
        refine ⟨le_refl _, fun a _ _ => rfl, fun rr hrr => ?_⟩
        simpa using hrr.symm
      | cons e rest =>
        obtain ⟨k, v⟩ := e
        rw [show mergeEntriesH 0 h r ((k, v) :: rest) = (h, none) from rfl] at heq
        rw [Prod.mk.injEq] at heq
        obtain ⟨he1, he2⟩ := heq
        subst he1
        subst he2
        exact ⟨le_refl _, fun a _ _ => rfl, fun rr hrr => by cases hrr⟩
  | succ fuel ih =>
    obtain ⟨ihD, ihM⟩ := ih
    have hM : ∀ (es : HObj) (h : Heap) (r : Nat) (h2 : Heap) (res : Option Nat),
        mergeEntriesH (fuel + 1) h r es = (h2, res) →
        h.next ≤ h2.next ∧ (∀ a, a < h.next → a ≠ r → getObj h2 a = getObj h a) ∧
        (∀ rr, res = some rr → rr = r) := by
      intro es
      induction es with
      | nil =>
        intro h r h2 res heq
        rw [show mergeEntriesH (fuel + 1) h r [] = (h, some r) from rfl] at heq
        rw [Prod.mk.injEq] at heq
        obtain ⟨he1, he2⟩ := heq
        subst he1
        subst he2
        refine ⟨le_refl _, fun a _ _ => rfl, fun rr hrr => ?_⟩
        simpa using hrr.symm
      | cons e rest ihes =>
        obtain ⟨k, v⟩ := e
        intro h r h2 res heq
        cases v with
        | prim pv =>
          rw [show mergeEntriesH (fuel + 1) h r ((k, .prim pv) :: rest)
              = mergeEntriesH fuel
                  (setObj h r (setKeyH ((getObj h r).getD []) k (.prim pv))) r rest
            from rfl] at heq
          obtain ⟨hn, hfr, hres⟩ := ihM rest _ r h2 res heq
          refine ⟨by simpa using hn, ?_, hres⟩
          intro a ha hne
          rw [hfr a (by simpa using ha) hne, getObj_setObj_ne _ _ _ _ hne]
        | ref va =>
          cases hcur : lookupH ((getObj h r).getD []) k with
          | none =>
            rw [show mergeEntriesH (fuel + 1) h r ((k, .ref va) :: rest)
                = (match lookupH ((getObj h r).getD []) k with
                   | some (.ref ca) =>
                     (match deepMergeH fuel h (.ref ca) va with
                      | (h2, some sa) =>
                        mergeEntriesH fuel
                          (setObj h2 r (setKeyH ((getObj h2 r).getD []) k (.ref sa))) r rest
                      | (h2, none) => (h2, none))
                   | _ =>
                     mergeEntriesH fuel
                       (setObj h r (setKeyH ((getObj h r).getD []) k (.ref va))) r rest)
              from rfl, hcur] at heq
            obtain ⟨hn, hfr, hres⟩ := ihM rest _ r h2 res heq
            refine ⟨by simpa using hn, ?_, hres⟩
            intro a ha hne
            rw [hfr a (by simpa using ha) hne, getObj_setObj_ne _ _ _ _ hne]
          | some cv =>
            cases cv with
            | prim cp =>
              rw [show mergeEntriesH (fuel + 1) h r ((k, .ref va) :: rest)
                  = (match lookupH ((getObj h r).getD []) k with
                     | some (.ref ca) =>
                       (match deepMergeH fuel h (.ref ca) va with
                        | (h2, some sa) =>
                          mergeEntriesH fuel
                            (setObj h2 r (setKeyH ((getObj h2 r).getD []) k (.ref sa))) r rest
                        | (h2, none) => (h2, none))
                     | _ =>
                       mergeEntriesH fuel
                         (setObj h r (setKeyH ((getObj h r).getD []) k (.ref va))) r rest)
                from rfl, hcur] at heq
              obtain ⟨hn, hfr, hres⟩ := ihM rest _ r h2 res heq
              refine ⟨by simpa using hn, ?_, hres⟩
              intro a ha hne
              rw [hfr a (by simpa using ha) hne, getObj_setObj_ne _ _ _ _ hne]
            | ref ca =>
              rw [show mergeEntriesH (fuel + 1) h r ((k, .ref va) :: rest)
                  = (match lookupH ((getObj h r).getD []) k with
                     | some (.ref ca) =>
                       (match deepMergeH fuel h (.ref ca) va with
                        | (h2, some sa) =>
                          mergeEntriesH fuel
                            (setObj h2 r (setKeyH ((getObj h2 r).getD []) k (.ref sa))) r rest
                        | (h2, none) => (h2, none))
                     | _ =>
                       mergeEntriesH fuel
                         (setObj h r (setKeyH ((getObj h r).getD []) k (.ref va))) r rest)
                from rfl, hcur] at heq
              simp only [] at heq
              cases hdm : deepMergeH fuel h (.ref ca) va with
              | mk h3 sub =>
                rw [hdm] at heq
                obtain ⟨hn3, hfr3, hres3⟩ := ihD h (.ref ca) va h3 sub hdm
                cases sub with
                | none =>
                  simp only [] at heq
                  rw [Prod.mk.injEq] at heq
                  obtain ⟨he1, he2⟩ := heq
                  subst he1
                  subst he2
                  exact ⟨hn3, fun a ha _ => hfr3 a ha, fun rr hrr => by cases hrr⟩
                | some sa =>
                  simp only [] at heq
                  obtain ⟨hn, hfr, hres⟩ := ihM rest _ r h2 res heq
                  refine ⟨le_trans hn3 (by simpa using hn), ?_, hres⟩
                  intro a ha hne
                  rw [hfr a (by simpa using (lt_of_lt_of_le ha hn3)) hne,
                    getObj_setObj_ne _ _ _ _ hne, hfr3 a ha]
    refine ⟨?_, hM⟩
    intro h base over h2 res heq
    unfold deepMergeH at heq
    cases hov : getObj h over with
    | none =>
      rw [hov] at heq
      simp only [] at heq
      rw [Prod.mk.injEq] at heq
      obtain ⟨he1, he2⟩ := heq
      subst he1
      subst he2
      exact ⟨le_refl _, fun a _ => rfl, fun rr hrr => by cases hrr⟩
    | some oEntries =>
      rw [hov] at heq
      simp only [] at heq
      obtain ⟨hn, hfr, hres⟩ := ihM oEntries _ _ h2 res heq
      have hn2 : h.next + 1 ≤ h2.next := hn
      refine ⟨by omega, ?_, ?_⟩
      · intro a ha
        have hne : a ≠ h.next := by omega
        have ha2 : a < h.next + 1 := by omega
        have hstep := hfr a ha2 hne
        rw [hstep]
        exact getObj_alloc_lt h _ a ha
      · intro rr hrr
        have h0 : rr = h.next := hres rr hrr
        subst h0
        exact ⟨le_refl _, by omega⟩

theorem applyRulesH_frame (rules : List (String × Nat)) :
    ∀ (fuel : Nat) (h : Heap) (m : Nat) (rel nm : String) (h2 : Heap)
      (res : Option Nat),
    applyRulesH fuel h m rel nm rules = (h2, res) →
    h.next ≤ h2.next ∧ (∀ a, a < h.next → getObj h2 a = getObj h a) ∧
    (∀ m2, res = some m2 → m2 = m ∨ h.next ≤ m2) := by
  induction rules with
  | nil =>
    intro fuel h m rel nm h2 res heq
    rw [show applyRulesH fuel h m rel nm [] = (h, some m) from rfl] at heq
    rw [Prod.mk.injEq] at heq
    obtain ⟨he1, he2⟩ := heq
    subst he1
    subst he2
    refine ⟨le_refl _, fun a _ => rfl, fun m2 hm2 => ?_⟩
    left
    simpa using hm2.symm
  | cons rv rest ih =>
    intro fuel h m rel nm h2 res heq
    obtain ⟨pat, va⟩ := rv
    rw [show applyRulesH fuel h m rel nm ((pat, va) :: rest)
        = (if matchesRule rel nm pat then
             match deepMergeH fuel h (.ref m) va with
             | (h3, some m3) => applyRulesH fuel h3 m3 rel nm rest
             | (h3, none) => (h3, none)
           else applyRulesH fuel h m rel nm rest)
      from rfl] at heq
    by_cases hm : matchesRule rel nm pat
    · rw [if_pos hm] at heq
      cases hdm : deepMergeH fuel h (.ref m) va with
      | mk h3 sub =>
        rw [hdm] at heq
        obtain ⟨hn3, hfr3, hres3⟩ := (deepMergeH_frame fuel).1 h (.ref m) va h3 sub hdm
        cases sub with
        | none =>
          simp only [] at heq
          rw [Prod.mk.injEq] at heq
          obtain ⟨he1, he2⟩ := heq
          subst he1
          subst he2
          exact ⟨hn3, hfr3, fun m2 hm2 => by cases hm2⟩
        | some m3 =>
          simp only [] at heq
          obtain ⟨hn, hfr, hres⟩ := ih fuel h3 m3 rel nm h2 res heq
          obtain ⟨hm3a, hm3b⟩ := hres3 m3 rfl
          refine ⟨le_trans hn3 hn, ?_, ?_⟩
          · intro a ha
            rw [hfr a (lt_of_lt_of_le ha hn3), hfr3 a ha]
          · intro m2 hm2
            rcases hres m2 hm2 with hc | hc
            · right
              rw [hc]
              exact hm3a
            · right
              omega
    · rw [if_neg hm] at heq
      exact ih fuel h m rel nm h2 res heq

/-- C10: the metadata override merger returns a new mapping and never
mutates its metadata argument.  In the heap model, every address allocated
before the call — in particular the metadata dictionary and every
dictionary nested inside it — holds exactly the same object after the
call, and a successfully returned mapping lives at a fresh address. -/
theorem c10_apply_metadata_overrides_no_mutation (fuel : Nat) (h : Heap)
    (metaAddr : Nat) (rel nm : String) (rules : List (String × Nat))
    (h2 : Heap) (res : Option Nat)
    (happ : applyOverridesH fuel h metaAddr rel nm rules = (h2, res)) :
    (∀ a, a < h.next → getObj h2 a = getObj h a) ∧
    (∀ m2, res = some m2 → h.next ≤ m2) := by
  unfold applyOverridesH at happ
  simp only [] at happ
  obtain ⟨hn, hfr, hres⟩ := applyRulesH_frame rules fuel _ _ rel nm h2 res happ
  have hn2 : h.next + 1 ≤ h2.next := hn
  constructor
  · intro a ha
    have ha2 : a < h.next + 1 := by omega
    have hstep := hfr a ha2
    rw [hstep]
    exact getObj_alloc_lt h _ a ha
  · intro m2 hm2
    rcases hres m2 hm2 with hc | hc
    · have hc2 : m2 = h.next := hc
      omega
    · have hc2 : h.next + 1 ≤ m2 := hc
      omega

/-- Example heap for the C10 witness: the metadata dictionary `{"k": ref 1}`
at address 0 with nested dictionary `{"x": 1}` at address 1, and a rule
values dictionary `{"k": ref 3}` at address 2 with nested `{"y": 2}` at
address 3. -/
def c10ExampleHeap : Heap :=
  ⟨4, [(0, [("k", HVal.ref 1)]),
       (1, [("x", HVal.prim (Value.num 1))]),
       (2, [("k", HVal.ref 3)]),
       (3, [("y", HVal.prim (Value.num 2))])]⟩

/-- Witness for C10: merging a matching override into the example heap's
metadata leaves the metadata dictionary and its nested dictionary
untouched and returns a fresh address. -/
theorem c10_apply_metadata_overrides_no_mutation_witness :
    getObj (applyOverridesH 10 c10ExampleHeap 0 "f" "f" [("*", 2)]).1 0
        = getObj c10ExampleHeap 0 ∧
    getObj (applyOverridesH 10 c10ExampleHeap 0 "f" "f" [("*", 2)]).1 1
        = getObj c10ExampleHeap 1 ∧
    (applyOverridesH 10 c10ExampleHeap 0 "f" "f" [("*", 2)]).2 = some 5 ∧
    c10ExampleHeap.next ≤ 5 :=
  ⟨(c10_apply_metadata_overrides_no_mutation 10 c10ExampleHeap 0 "f" "f"
      [("*", 2)] _ _ rfl).1 0 (by decide),
   (c10_apply_metadata_overrides_no_mutation 10 c10ExampleHeap 0 "f" "f"
      [("*", 2)] _ _ rfl).1 1 (by decide),
   by decide,
   (c10_apply_metadata_overrides_no_mutation 10 c10ExampleHeap 0 "f" "f"
      [("*", 2)] _ _ rfl).2 5 (by decide)⟩

end Publish
